import Mathlib

/-!
Shallow embedding of ThirdTube's networked streaming cache and prefetch engine
(`NetworkStream` / `NetworkStreamDownloader` from the network downloader
translation unit, plus the reader adapter `seek_network_stream` from
`source/network/network_decoder.cpp`).

Machine integers (`u64`) are modelled as `Nat`; where overflow of 64-bit
arithmetic matters (the `start + size - 1` computations in
`is_data_available` / `get_data`, and signed-to-unsigned conversion in
`seek_network_stream`) the wrap is made explicit with `% 2^64`.
`double` arithmetic (download percentage, scheduler margins) is modelled with
exact rationals `ℚ`.  The ordered `std::map<u64, std::vector<u8>>` is modelled
as an association list kept strictly sorted by key.
-/

namespace ThirdTube

/-- The compile-time tunables `BLOCK_SIZE`, `MAX_CACHE_BLOCKS`,
`MAX_FORWARD_READ_BLOCKS` (defined in a header outside this translation
unit); all functions are parametrised over them. -/
structure Config where
  BLOCK_SIZE : Nat
  MAX_CACHE_BLOCKS : Nat
  MAX_FORWARD_READ_BLOCKS : Nat
  deriving Repr, DecidableEq

/-- One u64 wraparound modulus. -/
def U64 : Nat := 2 ^ 64

/-- A fetched block: its bytes (u8 values as `Nat`). -/
abbrev Block := List Nat

/-- Model of `std::map<u64, std::vector<u8>> downloaded_data`: an association
list strictly sorted by key (the sortedness is an invariant, `CacheSorted`). -/
abbrev Cache := List (Nat × Block)

/-- The keys (block indices) of a cache, in map order. -/
def cacheKeys (c : Cache) : List Nat := c.map Prod.fst

/-- The `std::map` ordering invariant: keys strictly increasing. -/
def CacheSorted (c : Cache) : Prop := c.Pairwise (fun p q => p.1 < q.1)

/-- `downloaded_data.count(k)` (as a membership test). -/
def cacheCount (c : Cache) (k : Nat) : Bool := c.any (fun p => p.1 = k)

/-- `downloaded_data[k] = v`: ordered insert-or-assign, keeping the sorted
association-list representation of the `std::map`. -/
def cacheInsert (k : Nat) (v : Block) : Cache → Cache
  | [] => [(k, v)]
  | (k1, v1) :: rest =>
    if k < k1 then (k, v) :: (k1, v1) :: rest
    else if k = k1 then (k, v) :: rest
    else (k1, v1) :: cacheInsert k v rest

/-- `NetworkStream` state.  `url`, `session_list` and the interrupt-related
fields are carried only where a claim needs them; `read_head`, `len`,
`block_num` are u64 fields modelled as `Nat`. -/
structure NetworkStream where
  url : String := ""
  whole_download : Bool := false
  read_head : Nat := 0
  len : Nat := 0
  block_num : Nat := 0
  ready : Bool := false
  error : Bool := false
  suspend_request : Bool := false
  quit_request : Bool := false
  livestream_eof : Bool := false
  livestream_private : Bool := false
  seq_head : Int := 0
  seq_id : Int := 0
  downloaded_data : Cache := []
  deriving Repr, DecidableEq

/-- `NetworkStream::is_data_available(u64 start, u64 size)`.
The C++ computes `u64 end = start + size - 1`, which wraps for
`start + size == 0`; the wrap is explicit here (`start`, `size` are assumed to
be u64 values, i.e. `< 2^64`).  The `for` loop over
`start_block .. end_block` is the `List.range'` traversal. -/
def is_data_available (cfg : Config) (st : NetworkStream) (start size : Nat) : Bool :=
  if st.ready = false then false
  else if (start + size) % U64 > st.len then false
  else
    let e := (start + size + (U64 - 1)) % U64
    let start_block := start / cfg.BLOCK_SIZE
    let end_block := e / cfg.BLOCK_SIZE
    (List.range' start_block (end_block + 1 - start_block)).all
      (fun block => cacheCount st.downloaded_data block)

/-- The loop body of `NetworkStream::get_data`: walk the map iterator from
`find(start_block)` for blocks `b, b+1, ..., end_block`, appending
`itr->second[cur_l, cur_r)` each time.  `assert(itr->first == block)` failing
(or dereferencing `end()`) is undefined behaviour in the C++; it is modelled
as stopping with `[]`. -/
def get_data_go (cfg : Config) (start e eb : Nat) : Cache → Nat → List Nat
  | [], _ => []
  | (k, d) :: rest, b =>
    if k ≠ b then []
    else
      let cur_l := max start (b * cfg.BLOCK_SIZE) - b * cfg.BLOCK_SIZE
      let cur_r := min (e + 1) ((b + 1) * cfg.BLOCK_SIZE) - b * cfg.BLOCK_SIZE
      ((d.take cur_r).drop cur_l) ++ (if b = eb then [] else get_data_go cfg start e eb rest (b + 1))

/-- `NetworkStream::get_data(u64 start, u64 size)`.  `find(start_block)` on
the sorted map is the `dropWhile` of the keys below `start_block` (when
`start_block` is resident, which the caller guarantees, the two agree). -/
def get_data (cfg : Config) (st : NetworkStream) (start size : Nat) : List Nat :=
  if st.ready = false then []
  else if size = 0 then []
  else
    let e := (start + size - 1) % U64
    let start_block := start / cfg.BLOCK_SIZE
    let end_block := e / cfg.BLOCK_SIZE
    get_data_go cfg start e end_block
      (st.downloaded_data.dropWhile (fun p => decide (p.1 < start_block))) start_block

/-- `NetworkStream::set_data(u64 block, data)`: insert-or-assign, then if the
map outgrew `MAX_CACHE_BLOCKS`, erase `begin()` (the smallest key) when it is
below the current read-head block, else erase `prev(end())` (the largest
key). -/
def set_data (cfg : Config) (st : NetworkStream) (block : Nat) (data : Block) : NetworkStream :=
  let c := cacheInsert block data st.downloaded_data
  let c2 :=
    if c.length > cfg.MAX_CACHE_BLOCKS then
      match c with
      | [] => []
      | (k0, v0) :: rest =>
        if k0 < st.read_head / cfg.BLOCK_SIZE then rest
        else ((k0, v0) :: rest).dropLast
    else c
  { st with downloaded_data := c2 }

/-- `NetworkStream::get_download_percentage()`:
`(double) downloaded_data.size() * BLOCK_SIZE / len * 100`, with the `double`
arithmetic modelled exactly in `ℚ`. -/
def get_download_percentage (cfg : Config) (st : NetworkStream) : ℚ :=
  (st.downloaded_data.length : ℚ) * (cfg.BLOCK_SIZE : ℚ) / (st.len : ℚ) * 100

/-! ## Scheduler (`NetworkStreamDownloader::downloader_thread`) -/

/-- The selection-time scan of `downloader_thread`:
`first_not_downloaded_block` starts at `read_head_block` and advances over
resident blocks below `block_num`, breaking (after the increment) upon
reaching `read_head_block + MAX_FORWARD_READ_BLOCKS`. -/
def fnd_scan (cfg : Config) (st : NetworkStream) (rhb : Nat) (b : Nat) : Nat :=
  if b < st.block_num ∧ cacheCount st.downloaded_data b = true then
    if b + 1 = rhb + cfg.MAX_FORWARD_READ_BLOCKS then b + 1
    else fnd_scan cfg st rhb (b + 1)
  else b
termination_by st.block_num - b

/-- `first_not_downloaded_block` for a stream, started at the read-head
block. -/
def first_not_downloaded (cfg : Config) (st : NetworkStream) (rhb : Nat) : Nat :=
  fnd_scan cfg st rhb rhb

/-- The fetch-time rescan of `downloader_thread` (ranged mode, `ready` case):
`while (block_reading < block_num && count(block_reading)) block_reading++;`
— this one has no forward-window break. -/
def scan_unbounded (cfg : Config) (st : NetworkStream) (b : Nat) : Nat :=
  if b < st.block_num ∧ cacheCount st.downloaded_data b = true then
    scan_unbounded cfg st (b + 1)
  else b
termination_by st.block_num - b

/-- The scheduler's urgency metric (`margin_percentage`), in exact rational
arithmetic in place of the C++ `double`:
`0` at a cursor-block miss, else
`(first_not_downloaded_block * BLOCK_SIZE - read_head) / len * 100`. -/
def margin (cfg : Config) (st : NetworkStream) (fnd : Nat) : ℚ :=
  if fnd = st.read_head / cfg.BLOCK_SIZE then 0
  else ((fnd * cfg.BLOCK_SIZE - st.read_head : Nat) : ℚ) / (st.len : ℚ) * 100

/-- The stream-selection loop of `downloader_thread`, carried state being the
running best index (`cur_stream_index`, `none` for `(size_t)-1`) and
`margin_percentage_min` (initially `1000`).  A `quit_request` stream is
deleted and skipped; `error` / `suspend_request` streams are skipped; the
first not-`ready` stream is taken immediately (the `break`); `whole_download`
streams that are `ready` are skipped; a stream whose scan hits `block_num` or
the forward-window boundary is skipped; otherwise the stream competes on its
margin under a strict `margin_percentage_min > margin_percentage` test. -/
def select_go (cfg : Config) :
    List (Option NetworkStream) → Nat → Option Nat → ℚ → Option Nat
  | [], _, best, _ => best
  | none :: rest, i, best, mmin => select_go cfg rest (i + 1) best mmin
  | some st :: rest, i, best, mmin =>
    if st.quit_request = true then select_go cfg rest (i + 1) best mmin
    else if st.error = true then select_go cfg rest (i + 1) best mmin
    else if st.suspend_request = true then select_go cfg rest (i + 1) best mmin
    else if st.ready = false then some i
    else if st.whole_download = true then select_go cfg rest (i + 1) best mmin
    else
      let rhb := st.read_head / cfg.BLOCK_SIZE
      let fnd := first_not_downloaded cfg st rhb
      if fnd = st.block_num then select_go cfg rest (i + 1) best mmin
      else if fnd = rhb + cfg.MAX_FORWARD_READ_BLOCKS then select_go cfg rest (i + 1) best mmin
      else
        let m := margin cfg st fnd
        if mmin > m then select_go cfg rest (i + 1) (some i) m
        else select_go cfg rest (i + 1) best mmin

/-- One stream-selection pass over the slot array (the `read_head` snapshot
taken at the top of the loop coincides with the current field in this
sequential model). -/
def select_stream (cfg : Config) (streams : List (Option NetworkStream)) : Option Nat :=
  select_go cfg streams 0 none 1000

/-- The block a ranged-mode fetch reads (`block_reading`): the read-head block
when not yet `ready`, else the fetch-time rescan — `none` when the rescan runs
off `block_num` (the "trying to read beyond the end of the stream" error path,
which issues no fetch). -/
def ranged_fetch_block (cfg : Config) (st : NetworkStream) : Option Nat :=
  let b0 := st.read_head / cfg.BLOCK_SIZE
  if st.ready = true then
    let b := scan_unbounded cfg st b0
    if b = st.block_num then none else some b
  else some b0

/-! ## HTTP results and the two fetch-completion paths -/

/-- The HTTP fetcher's result (`Access_http_get`), an external collaborator:
body bytes, status code, failure flag, final URL, response headers. -/
structure HttpResult where
  data : List Nat
  status_code : Nat
  fail : Bool
  redirected_url : String := ""
  headers : List (String × String) := []
  deriving Repr

/-- `result.get_header(name)`: the header value, `""` when absent. -/
def HttpResult.get_header (r : HttpResult) (name : String) : String :=
  (r.headers.lookup name).getD ""

/-- Modelled from the spec: `status_code_is_success()` is declared in
`network_io.hpp`, outside this repository snapshot; per the spec, "Success
codes: any 2xx". -/
def HttpResult.status_code_is_success (r : HttpResult) : Bool :=
  200 ≤ r.status_code ∧ r.status_code < 300

/-- `HTTP_STATUS_CODE_NO_CONTENT`. -/
def HTTP_STATUS_CODE_NO_CONTENT : Nat := 204
/-- `HTTP_STATUS_CODE_NOT_FOUND`. -/
def HTTP_STATUS_CODE_NOT_FOUND : Nat := 404
/-- `HTTP_STATUS_CODE_FORBIDDEN`. -/
def HTTP_STATUS_CODE_FORBIDDEN : Nat := 403

/-- Decimal value of a digit string (most significant first). -/
def digitsVal (cs : List Char) : Int :=
  cs.foldl (fun a c => a * 10 + ((c.toNat : Int) - 48)) 0

/-- `strtoll(s, &end, 10)` together with the code's `*end` check: `some n`
exactly when the conversion consumed the whole string (optional whitespace,
optional sign, digits, nothing after).  The empty string passes (`strtoll`
returns `0` with `end == nptr`, and `*end` is the terminator). -/
def strtollFull (cs : List Char) : Option Int :=
  if cs.isEmpty then some 0
  else
    let cs1 := cs.dropWhile Char.isWhitespace
    match cs1 with
    | [] => none
    | '+' :: rest => if rest ≠ [] ∧ rest.all Char.isDigit then some (digitsVal rest) else none
    | '-' :: rest => if rest ≠ [] ∧ rest.all Char.isDigit then some (-(digitsVal rest)) else none
    | _ => if cs1.all Char.isDigit then some (digitsVal cs1) else none

/-- The whole-mode sequence-header acquisition:
`strtoll(value.c_str(), &end, 10)` followed by `if (*end || !value.size())`.
`some n` when the value is non-empty and fully parses. -/
def parseSeqHeader (value : String) : Option Int :=
  if value = "" then none else strtollFull value.data

/-- The ranged-mode `Content-Range` total parse: `strchr(str, '/')`, then
`strtoll(slash + 1, &end, 10)` with only the `!*end` check (so an empty
suffix yields `0`). -/
def parseContentRangeTotal (s : String) : Option Int :=
  match s.data.dropWhile (fun c => c ≠ '/') with
  | [] => none
  | _ :: rest => strtollFull rest

/-- The whole-mode body-splitting loop
`for (i = 0; i < data.size(); i += BLOCK_SIZE) set_data(i / BLOCK_SIZE, ...)`,
reindexed over the block counter (the C++ loop diverges for
`BLOCK_SIZE = 0`; `BLOCK_SIZE > 0` is assumed throughout). -/
def insertAllBlocks (cfg : Config) (st : NetworkStream) (data : List Nat) : NetworkStream :=
  (List.range ((data.length + cfg.BLOCK_SIZE - 1) / cfg.BLOCK_SIZE)).foldl
    (fun s k =>
      let left := k * cfg.BLOCK_SIZE
      let right := min (left + cfg.BLOCK_SIZE) data.length
      set_data cfg s k ((data.take right).drop left))
    st

/-- The whole-download completion path of `downloader_thread` (lines
185–233): on `!fail && status_code_is_success() && data.size()`, acquire the
two sequence headers (each failure sets the field to `-1` and flags `error`),
then — if `error` is still clear — publish `len` / `block_num`, insert every
block and set `ready`; otherwise flag `error` and map `204`/`404` to
`livestream_eof` and `403` to `livestream_private`. -/
def handleWholeResult (cfg : Config) (st0 : NetworkStream) (r : HttpResult) : NetworkStream :=
  let st := { st0 with url := r.redirected_url }
  if r.fail = false ∧ r.status_code_is_success = true ∧ r.data.length ≠ 0 then
    let st :=
      match parseSeqHeader (r.get_header "x-head-seqnum") with
      | some n => { st with seq_head := n }
      | none => { st with seq_head := -1, error := true }
    let st :=
      match parseSeqHeader (r.get_header "x-sequence-num") with
      | some n => { st with seq_id := n }
      | none => { st with seq_id := -1, error := true }
    if st.error = false then
      let st := { st with len := r.data.length,
                          block_num := (r.data.length + cfg.BLOCK_SIZE - 1) / cfg.BLOCK_SIZE }
      let st := insertAllBlocks cfg st r.data
      { st with ready := true }
    else st
  else
    let st := { st with error := true }
    if r.status_code = HTTP_STATUS_CODE_NO_CONTENT ∨ r.status_code = HTTP_STATUS_CODE_NOT_FOUND then
      { st with livestream_eof := true }
    else if r.status_code = HTTP_STATUS_CODE_FORBIDDEN then
      { st with livestream_private := true }
    else st

/-- The ranged completion path of `downloader_thread` (lines 251–283), after
the Range request for `block_reading` with `expected_len = end - start`: on
`!fail`, a not-yet-`ready` stream parses the `Content-Range` total (failure
flags `error` but still falls through), a `ready` stream aborts on a body
size discrepancy, else the block is stored and `ready` is set; on `fail`
only `error` is flagged. -/
def handleRangedResult (cfg : Config) (st0 : NetworkStream)
    (block_reading expected_len : Nat) (r : HttpResult) : NetworkStream :=
  let st := { st0 with url := r.redirected_url }
  if r.fail = false then
    let st :=
      if st.ready = false then
        match parseContentRangeTotal (r.get_header "Content-Range") with
        | some total =>
          { st with len := total.toNat,
                    block_num := (total.toNat + cfg.BLOCK_SIZE - 1) / cfg.BLOCK_SIZE }
        | none => { st with error := true }
      else st
    if st.ready = true ∧ r.data.length ≠ expected_len then { st with error := true }
    else
      let st := set_data cfg st block_reading r.data
      { st with ready := true }
  else { st with error := true }

/-! ## Reader adapter: `seek_network_stream` (network_decoder.cpp) -/

/-- `AVSEEK_SIZE` / `SEEK_SET` / `SEEK_CUR` / `SEEK_END`. -/
inductive Whence
  | avsize
  | set
  | cur
  | toEnd
  deriving Repr, DecidableEq

/-- `seek_network_stream` after its wait-for-`ready` loop (the C++ spins in
20 ms sleeps until `ready`, returning `-1` if `error` or `quit_request`
appears first; the not-`ready` branch here models that bail-out, and the
theorems below assume `ready`).  `u64 new_pos` arithmetic wraps mod `2^64`;
the s64 `offset` converts by the same wrap. -/
def seek_network_stream (st : NetworkStream) (offset : Int) (whence : Whence) :
    NetworkStream × Int :=
  if st.ready = false then (st, -1)
  else if whence = Whence.avsize then (st, (st.len : Int))
  else
    let new_pos : Nat :=
      match whence with
      | Whence.set => (offset % (U64 : Int)).toNat
      | Whence.cur => (((st.read_head : Int) + offset) % (U64 : Int)).toNat
      | Whence.toEnd => (((st.len : Int) + offset) % (U64 : Int)).toNat
      | Whence.avsize => 0
    if new_pos > st.len then (st, -1)
    else ({ st with read_head := new_pos }, (new_pos : Int))

/-- A sequence of `set_data` calls (`insert(i, b_i)` in spec terms). -/
def applyInserts (cfg : Config) (st : NetworkStream) (ops : List (Nat × Block)) : NetworkStream :=
  ops.foldl (fun s p => set_data cfg s p.1 p.2) st

/-- Block `b` (covering bytes `[b·BLOCK_SIZE, (b+1)·BLOCK_SIZE)`) has a
non-empty intersection with the byte range `[start, start + size)`. -/
def blockIntersects (cfg : Config) (start size b : Nat) : Prop :=
  max (b * cfg.BLOCK_SIZE) start < min ((b + 1) * cfg.BLOCK_SIZE) (start + size)

/-- The byte a cache stores for absolute position `p`: byte `p % BLOCK_SIZE`
of the block `p / BLOCK_SIZE` (0 when absent — the specification side of the
read round-trip law). -/
def cacheByteAt (cfg : Config) (c : Cache) (p : Nat) : Nat :=
  ((List.lookup (p / cfg.BLOCK_SIZE) c).getD []).getD (p % cfg.BLOCK_SIZE) 0

/-- Well-formedness a stream acquires when the fetch path publishes `len`
and `block_num` together with `ready`: a positive length and
`block_num = ceil(len / BLOCK_SIZE)`. -/
def StreamWF (cfg : Config) (st : NetworkStream) : Prop :=
  st.ready = true →
    0 < st.len ∧ st.block_num = (st.len + cfg.BLOCK_SIZE - 1) / cfg.BLOCK_SIZE

/-- The stream in slot `i` (`none` for an out-of-range or nil slot). -/
def slotAt (streams : List (Option NetworkStream)) (i : Nat) : Option NetworkStream :=
  (streams.get? i).join

/-- A stream the selection loop does not skip outright: not flagged `error`
or `suspend_request`, and not an already fully-cached whole-download
(`whole_download && ready`). -/
def notSkipped (st : NetworkStream) : Prop :=
  st.error = false ∧ st.suspend_request = false ∧
  ¬ (st.whole_download = true ∧ st.ready = true)

/-- Slot `i` holds an initialization-urgent stream: eligible and not yet
`ready`. -/
def initUrgent (streams : List (Option NetworkStream)) (i : Nat) : Prop :=
  ∃ st, slotAt streams i = some st ∧ notSkipped st ∧ st.ready = false

/-- The stream has a next-needed block: the bounded scan hits neither
`block_num` nor the forward-window boundary. -/
def needsBlock (cfg : Config) (st : NetworkStream) : Prop :=
  first_not_downloaded cfg st (st.read_head / cfg.BLOCK_SIZE) ≠ st.block_num ∧
  first_not_downloaded cfg st (st.read_head / cfg.BLOCK_SIZE) ≠
    st.read_head / cfg.BLOCK_SIZE + cfg.MAX_FORWARD_READ_BLOCKS

/-- Slot `i` holds a ranged candidate competing on its margin. -/
def isCandidate (cfg : Config) (streams : List (Option NetworkStream)) (i : Nat) : Prop :=
  ∃ st, slotAt streams i = some st ∧ notSkipped st ∧ st.ready = true ∧
    st.whole_download = false ∧ needsBlock cfg st

/-- The margin the selection loop computes for slot `i` (`0` on empty
slots, where it is never consulted). -/
def marginAt (cfg : Config) (streams : List (Option NetworkStream)) (i : Nat) : ℚ :=
  match slotAt streams i with
  | some st => margin cfg st (first_not_downloaded cfg st (st.read_head / cfg.BLOCK_SIZE))
  | none => 0

/-- Loop invariant of the selection fold: the accumulator `(best, mmin)` is
either still the initial `(none, 1000)` with no candidate seen among slots
`< i0`, or records the first candidate slot attaining the strictly smallest
margin seen so far. -/
def SelInv (cfg : Config) (streams : List (Option NetworkStream)) (i0 : Nat)
    (best : Option Nat) (mmin : ℚ) : Prop :=
  (best = none ∧ mmin = 1000 ∧ ∀ j, j < i0 → ¬ isCandidate cfg streams j) ∨
  (∃ b, best = some b ∧ b < i0 ∧ isCandidate cfg streams b ∧
    mmin = marginAt cfg streams b ∧
    ∀ j, j < i0 → isCandidate cfg streams j →
      (mmin < marginAt cfg streams j ∨ (marginAt cfg streams j = mmin ∧ b ≤ j)))

/-- What stream selection guarantees from slot `i0` onwards, given the
accumulator invariant: the first initialization-urgent slot wins, otherwise
the selected slot is a candidate of minimal margin (earliest on ties), and a
`none` result means no candidate exists at all. -/
def SelPost (cfg : Config) (streams : List (Option NetworkStream)) (i0 : Nat)
    (res : Option Nat) : Prop :=
  (∀ j, i0 ≤ j → initUrgent streams j →
    (∀ j2, i0 ≤ j2 → j2 < j → ¬ initUrgent streams j2) → res = some j) ∧
  ((∀ j, i0 ≤ j → ¬ initUrgent streams j) →
    (∀ i, res = some i →
      isCandidate cfg streams i ∧
      ∀ j, isCandidate cfg streams j →
        (marginAt cfg streams i < marginAt cfg streams j ∨
         (marginAt cfg streams i = marginAt cfg streams j ∧ i ≤ j))) ∧
    (res = none → ∀ j, ¬ isCandidate cfg streams j))

/-! ## Lemmas about the sorted-cache representation -/

theorem cacheCount_eq_true {c : Cache} {k : Nat} :
    cacheCount c k = true ↔ ∃ v, (k, v) ∈ c := by
  unfold cacheCount
  simp only [List.any_eq_true, decide_eq_true_eq]
  constructor
  · rintro ⟨⟨k1, v⟩, hp, he⟩
    subst he
    exact ⟨v, hp⟩
  · rintro ⟨v, hv⟩
    exact ⟨(k, v), hv, rfl⟩

theorem mem_cacheInsert {k : Nat} {v : Block} {c : Cache} :
    ∀ p ∈ cacheInsert k v c, p = (k, v) ∨ p ∈ c := by
  induction c with
  | nil =>
    intro p hp
    simp [cacheInsert] at hp
    exact Or.inl hp
  | cons hd tl ih =>
    intro p hp
    obtain ⟨k1, v1⟩ := hd
    unfold cacheInsert at hp
    split at hp
    · rcases List.mem_cons.mp hp with h | h
      · exact Or.inl h
      · exact Or.inr h
    · split at hp
      · rcases List.mem_cons.mp hp with h | h
        · exact Or.inl h
        · exact Or.inr (List.mem_cons_of_mem _ h)
      · rcases List.mem_cons.mp hp with h | h
        · exact Or.inr (List.mem_cons.mpr (Or.inl h))
        · rcases ih p h with h1 | h1
          · exact Or.inl h1
          · exact Or.inr (List.mem_cons_of_mem _ h1)

theorem cacheInsert_sorted {c : Cache} (hs : CacheSorted c) (k : Nat) (v : Block) :
    CacheSorted (cacheInsert k v c) := by
  unfold CacheSorted at hs ⊢
  induction c with
  | nil => simp [cacheInsert]
  | cons hd tl ih =>
    obtain ⟨k1, v1⟩ := hd
    rw [List.pairwise_cons] at hs
    obtain ⟨hlt, htl⟩ := hs
    unfold cacheInsert
    split
    · rename_i hk
      rw [List.pairwise_cons]
      constructor
      · intro q hq
        rcases List.mem_cons.mp hq with h1 | h1
        · subst h1
          exact hk
        · exact lt_trans hk (hlt _ h1)
      · exact List.pairwise_cons.mpr ⟨hlt, htl⟩
    · split
      · rename_i hne heq
        rw [List.pairwise_cons]
        constructor
        · intro q hq
          have h2 : k1 < q.1 := hlt q hq
          show k < q.1
          omega
        · exact htl
      · rename_i hne hne2
        rw [List.pairwise_cons]
        constructor
        · intro q hq
          rcases mem_cacheInsert q hq with h1 | h1
          · subst h1
            show k1 < k
            omega
          · exact hlt _ h1
        · exact ih htl

/-- `begin()` of the sorted map is the minimum key. -/
theorem sorted_head_key_le {p : Nat × Block} {tl : Cache} (hs : CacheSorted (p :: tl)) :
    ∀ q ∈ p :: tl, p.1 ≤ q.1 := by
  unfold CacheSorted at hs
  rw [List.pairwise_cons] at hs
  intro q hq
  rcases List.mem_cons.mp hq with h | h
  · subst h
    exact le_refl _
  · exact le_of_lt (hs.1 q h)

/-- `prev(end())` of the sorted map is the maximum key. -/
theorem sorted_getLast_key_ge {c : Cache} (hs : CacheSorted c) (hne : c ≠ []) :
    ∀ q ∈ c, q.1 ≤ (c.getLast hne).1 := by
  induction c with
  | nil => exact absurd rfl hne
  | cons hd tl ih =>
    intro q hq
    unfold CacheSorted at hs
    rw [List.pairwise_cons] at hs
    obtain ⟨hlt, htl⟩ := hs
    cases tl with
    | nil =>
      rcases List.mem_cons.mp hq with h | h
      · subst h
        exact le_refl _
      · exact absurd h (List.not_mem_nil q)
    | cons hd2 tl2 =>
      rw [List.getLast_cons (by simp)]
      rcases List.mem_cons.mp hq with h | h
      · subst h
        exact le_of_lt (hlt _ (List.getLast_mem _))
      · exact ih htl (by simp) q h

theorem length_cacheInsert {c : Cache} (hs : CacheSorted c) (k : Nat) (v : Block) :
    (cacheInsert k v c).length =
      if cacheCount c k = true then c.length else c.length + 1 := by
  induction c with
  | nil => simp [cacheInsert, cacheCount]
  | cons hd tl ih =>
    obtain ⟨k1, v1⟩ := hd
    rw [CacheSorted, List.pairwise_cons] at hs
    obtain ⟨hlt, htl⟩ := hs
    unfold cacheInsert
    rcases Nat.lt_trichotomy k k1 with h | h | h
    · have hnc : cacheCount ((k1, v1) :: tl) k = false := by
        rw [Bool.eq_false_iff]
        intro hc
        obtain ⟨w, hw⟩ := cacheCount_eq_true.mp hc
        rcases List.mem_cons.mp hw with h1 | h1
        · have : k = k1 := congrArg Prod.fst h1
          omega
        · have : k1 < k := hlt _ h1
          omega
      simp [h, hnc]
    · subst h
      have hc : cacheCount ((k, v1) :: tl) k = true :=
        cacheCount_eq_true.mpr ⟨v1, by simp⟩
      simp [hc]
    · have hk : ¬ k < k1 := by omega
      have hk2 : ¬ k = k1 := by omega
      have hcc : cacheCount ((k1, v1) :: tl) k = cacheCount tl k := by
        unfold cacheCount
        simp only [List.any_cons]
        have : (decide (k1 = k)) = false := by simp; omega
        rw [this, Bool.false_or]
      simp only [if_neg hk, if_neg hk2, List.length_cons, hcc, ih htl]
      split <;> rfl

/-- Insert-or-assign grows the map by at most one entry. -/
theorem length_cacheInsert_le (c : Cache) (k : Nat) (v : Block) :
    (cacheInsert k v c).length ≤ c.length + 1 := by
  induction c with
  | nil => simp [cacheInsert]
  | cons hd tl ih =>
    obtain ⟨k1, v1⟩ := hd
    unfold cacheInsert
    split
    · simp
    · split
      · simp
      · simpa using ih

/-- Inserting an absent key grows the map by exactly one entry (no
sortedness needed). -/
theorem length_cacheInsert_of_not_mem {c : Cache} {k : Nat}
    (hc : cacheCount c k = false) (v : Block) :
    (cacheInsert k v c).length = c.length + 1 := by
  induction c with
  | nil => simp [cacheInsert]
  | cons hd tl ih =>
    obtain ⟨k1, v1⟩ := hd
    have hk1 : ¬ k1 = k := by
      intro h
      subst h
      have : cacheCount ((k1, v1) :: tl) k1 = true := cacheCount_eq_true.mpr ⟨v1, by simp⟩
      rw [this] at hc
      exact Bool.true_eq_false.mp hc
    have htl : cacheCount tl k = false := by
      unfold cacheCount at hc ⊢
      simp only [List.any_cons] at hc
      exact (Bool.or_eq_false_iff.mp hc).2
    unfold cacheInsert
    split
    · simp
    · split
      · rename_i hlt heq
        omega
      · simp [ih htl]

/-- `set_data` preserves the residency bound. -/
theorem set_data_length_le (cfg : Config) {st : NetworkStream}
    (hle : st.downloaded_data.length ≤ cfg.MAX_CACHE_BLOCKS) (b : Nat) (v : Block) :
    (set_data cfg st b v).downloaded_data.length ≤ cfg.MAX_CACHE_BLOCKS := by
  unfold set_data
  simp only []
  have hins := length_cacheInsert_le st.downloaded_data b v
  split
  · rename_i hgt
    split
    · simp
    · rename_i k0 v0 rest heq
      rw [heq] at hins hgt
      split
      · simp at hins ⊢
        omega
      · simp only [List.length_dropLast, List.length_cons] at hgt ⊢
        simp at hins
        omega
  · rename_i hng
    omega

/-- `set_data` preserves the sortedness invariant. -/
theorem set_data_sorted (cfg : Config) {st : NetworkStream}
    (hs : CacheSorted st.downloaded_data) (b : Nat) (v : Block) :
    CacheSorted (set_data cfg st b v).downloaded_data := by
  unfold set_data
  simp only []
  have hins : CacheSorted (cacheInsert b v st.downloaded_data) := cacheInsert_sorted hs b v
  split
  · split
    · exact List.Pairwise.nil
    · rename_i k0 v0 rest heq
      rw [heq] at hins
      split
      · exact (List.pairwise_cons.mp hins).2
      · exact List.Pairwise.sublist (List.dropLast_sublist _) hins
  · exact hins

/-- Entries of the cache after `set_data` come from the inserted pair or the
previous cache. -/
theorem mem_set_data (cfg : Config) (st : NetworkStream) (b : Nat) (v : Block) :
    ∀ p ∈ (set_data cfg st b v).downloaded_data,
      p = (b, v) ∨ p ∈ st.downloaded_data := by
  intro p hp
  unfold set_data at hp
  simp only [] at hp
  have hsub : p ∈ cacheInsert b v st.downloaded_data := by
    split at hp
    · split at hp
      · exact absurd hp (List.not_mem_nil p)
      · rename_i k0 v0 rest heq
        rw [heq]
        split at hp
        · exact List.mem_cons_of_mem _ hp
        · exact (List.dropLast_sublist _).mem hp
    · exact hp
  exact mem_cacheInsert p hsub

/-! ## Claim C1: the eviction rule -/

/-- C1, counterexample.  A cache at capacity `MAX_CACHE_BLOCKS = 4` holding
`S = {5,6,7,8}` with `read_head = 5` (`BLOCK_SIZE = 1`, so the cursor block
is `5`): the claim predicts that inserting the new block `1` evicts
`max(S) = 8` (since `min(S) = 5` is not `< 5`) and in particular never the
new block itself; the code instead evicts from the post-insertion map
`S ∪ {1}` and removes the freshly inserted block `1`, leaving `{5,6,7,8}`. -/
theorem C1_counterexample :
    let cfg : Config := ⟨1, 4, 8⟩
    let st : NetworkStream :=
      { ready := true, read_head := 5,
        downloaded_data := [(5, [0]), (6, [0]), (7, [0]), (8, [0])] }
    st.downloaded_data.length = cfg.MAX_CACHE_BLOCKS ∧
    cacheCount st.downloaded_data 1 = false ∧
    cacheKeys (set_data cfg st 1 [0]).downloaded_data = [5, 6, 7, 8] := by
  decide

/-- C1, amended: when a cache at capacity `MAX_CACHE_BLOCKS` holding key set
`S` receives a new block `b`, exactly one block is evicted, chosen from the
**post-insertion** set `S ∪ {b}`: its minimum if that minimum is below the
cursor block `read_head / BLOCK_SIZE`, else its maximum — so the evicted
block may be the newly inserted `b` itself. -/
theorem C1_amended (cfg : Config) (st : NetworkStream) (b : Nat) (v : Block)
    (hs : CacheSorted st.downloaded_data)
    (hfull : st.downloaded_data.length = cfg.MAX_CACHE_BLOCKS)
    (hnew : cacheCount st.downloaded_data b = false) :
    ∃ pmin pmax : Nat × Block,
      (cacheInsert b v st.downloaded_data).head? = some pmin ∧
      (cacheInsert b v st.downloaded_data).getLast? = some pmax ∧
      (∀ q ∈ cacheInsert b v st.downloaded_data, pmin.1 ≤ q.1 ∧ q.1 ≤ pmax.1) ∧
      pmin.1 ∈ b :: cacheKeys st.downloaded_data ∧
      pmax.1 ∈ b :: cacheKeys st.downloaded_data ∧
      (set_data cfg st b v).downloaded_data =
        (if pmin.1 < st.read_head / cfg.BLOCK_SIZE
         then (cacheInsert b v st.downloaded_data).tail
         else (cacheInsert b v st.downloaded_data).dropLast) ∧
      (set_data cfg st b v).downloaded_data.length = cfg.MAX_CACHE_BLOCKS := by
  have hlen : (cacheInsert b v st.downloaded_data).length = cfg.MAX_CACHE_BLOCKS + 1 := by
    rw [length_cacheInsert_of_not_mem hnew v, hfull]
  have hne : cacheInsert b v st.downloaded_data ≠ [] := by
    intro h
    rw [h] at hlen
    simp at hlen
  obtain ⟨hd, tl, hc⟩ := List.exists_cons_of_ne_nil hne
  obtain ⟨k0, v0⟩ := hd
  have hsort : CacheSorted (cacheInsert b v st.downloaded_data) := cacheInsert_sorted hs b v
  refine ⟨(k0, v0), (cacheInsert b v st.downloaded_data).getLast hne, ?_, ?_, ?_, ?_, ?_, ?_, ?_⟩
  · rw [hc]
    rfl
  · exact List.getLast?_eq_getLast _ hne
  · intro q hq
    constructor
    · have := sorted_head_key_le (hc ▸ hsort) q (hc ▸ hq)
      simpa using this
    · exact sorted_getLast_key_ge hsort hne q hq
  · have hmem : ((k0, v0) : Nat × Block) ∈ cacheInsert b v st.downloaded_data := by
      rw [hc]
      simp
    rcases mem_cacheInsert _ hmem with h | h
    · rw [h]
      simp
    · exact List.mem_cons_of_mem _ (List.mem_map_of_mem Prod.fst h)
  · have hmem := List.getLast_mem hne
    rcases mem_cacheInsert _ hmem with h | h
    · rw [h]
      simp
    · exact List.mem_cons_of_mem _ (List.mem_map_of_mem Prod.fst h)
  · have hgt : (cacheInsert b v st.downloaded_data).length > cfg.MAX_CACHE_BLOCKS := by
      omega
    unfold set_data
    dsimp only
    rw [if_pos hgt, hc]
    dsimp only
    rw [← hc]
    split
    · rw [hc]
      rfl
    · rfl
  · have hgt : (cacheInsert b v st.downloaded_data).length > cfg.MAX_CACHE_BLOCKS := by
      omega
    unfold set_data
    dsimp only
    rw [if_pos hgt, hc]
    dsimp only
    have htlen : tl.length = cfg.MAX_CACHE_BLOCKS := by
      rw [hc] at hlen
      simp only [List.length_cons] at hlen
      omega
    split
    · exact htlen
    · simp only [List.length_dropLast, List.length_cons]
      omega

/-- C1, witness for the amended theorem: capacity-3 cache `{0, 2, 5}` with
cursor block `3`; inserting block `7` evicts the minimum `0` of the
post-insertion set. -/
theorem C1_amended_witness :
    let cfg : Config := ⟨2, 3, 4⟩
    let st : NetworkStream :=
      { ready := true, read_head := 6,
        downloaded_data := [(0, [9, 9]), (2, [9, 9]), (5, [9, 9])] }
    ∃ pmin pmax : Nat × Block,
      (cacheInsert 7 [9, 9] st.downloaded_data).head? = some pmin ∧
      (cacheInsert 7 [9, 9] st.downloaded_data).getLast? = some pmax ∧
      (∀ q ∈ cacheInsert 7 [9, 9] st.downloaded_data, pmin.1 ≤ q.1 ∧ q.1 ≤ pmax.1) ∧
      pmin.1 ∈ 7 :: cacheKeys st.downloaded_data ∧
      pmax.1 ∈ 7 :: cacheKeys st.downloaded_data ∧
      (set_data cfg st 7 [9, 9]).downloaded_data =
        (if pmin.1 < st.read_head / cfg.BLOCK_SIZE
         then (cacheInsert 7 [9, 9] st.downloaded_data).tail
         else (cacheInsert 7 [9, 9] st.downloaded_data).dropLast) ∧
      (set_data cfg st 7 [9, 9]).downloaded_data.length = cfg.MAX_CACHE_BLOCKS :=
  C1_amended ⟨2, 3, 4⟩
    { ready := true, read_head := 6,
      downloaded_data := [(0, [9, 9]), (2, [9, 9]), (5, [9, 9])] }
    7 [9, 9] (by unfold CacheSorted; decide) (by decide) (by decide)

/-! ## Claim C5: bounded residency -/

/-- C5: after any sequence of `insert` operations starting from an empty
cache the number of resident blocks is at most `MAX_CACHE_BLOCKS`, and an
insertion of a new block into a cache already at the bound evicts exactly
one block (the cache returns to exactly `MAX_CACHE_BLOCKS` entries, the
post-insertion map minus one of `begin()` / `prev(end())`). -/
theorem C5_residency_bound (cfg : Config) (st0 : NetworkStream)
    (ops : List (Nat × Block)) (h0 : st0.downloaded_data = []) :
    (applyInserts cfg st0 ops).downloaded_data.length ≤ cfg.MAX_CACHE_BLOCKS ∧
    (∀ st : NetworkStream, ∀ b : Nat, ∀ v : Block,
      st.downloaded_data.length = cfg.MAX_CACHE_BLOCKS →
      cacheCount st.downloaded_data b = false →
      (set_data cfg st b v).downloaded_data.length = cfg.MAX_CACHE_BLOCKS ∧
      ((set_data cfg st b v).downloaded_data = (cacheInsert b v st.downloaded_data).tail ∨
       (set_data cfg st b v).downloaded_data = (cacheInsert b v st.downloaded_data).dropLast)) := by
  constructor
  · have key : ∀ (l : List (Nat × Block)) (st : NetworkStream),
        st.downloaded_data.length ≤ cfg.MAX_CACHE_BLOCKS →
        (applyInserts cfg st l).downloaded_data.length ≤ cfg.MAX_CACHE_BLOCKS := by
      intro l
      induction l with
      | nil => intro st h; exact h
      | cons p rest ih =>
        intro st h
        exact ih _ (set_data_length_le cfg h p.1 p.2)
    exact key ops st0 (by rw [h0]; simp)
  · intro st b v hfull hnew
    have hlen : (cacheInsert b v st.downloaded_data).length = cfg.MAX_CACHE_BLOCKS + 1 := by
      rw [length_cacheInsert_of_not_mem hnew v, hfull]
    obtain ⟨hd, tl, hc⟩ := List.exists_cons_of_ne_nil
      (show cacheInsert b v st.downloaded_data ≠ [] by
        intro h; rw [h] at hlen; simp at hlen)
    have hgt : (cacheInsert b v st.downloaded_data).length > cfg.MAX_CACHE_BLOCKS := by omega
    obtain ⟨k0, v0⟩ := hd
    have htlen : tl.length = cfg.MAX_CACHE_BLOCKS := by
      rw [hc] at hlen
      simp only [List.length_cons] at hlen
      omega
    constructor
    · unfold set_data
      dsimp only
      rw [if_pos hgt, hc]
      dsimp only
      split
      · exact htlen
      · simp only [List.length_dropLast, List.length_cons]
        omega
    · unfold set_data
      dsimp only
      rw [if_pos hgt, hc]
      dsimp only
      split
      · exact Or.inl rfl
      · exact Or.inr rfl

/-- C5, witness: three inserts into an empty capacity-2 cache stay within the
bound, and a full cache receiving a new block stays at exactly two
entries. -/
theorem C5_residency_bound_witness :
    (applyInserts ⟨2, 2, 4⟩ { len := 10 } [(0, [1, 2]), (1, [3, 4]), (2, [5, 6])]
        ).downloaded_data.length ≤ (2 : Nat) ∧
    (∀ st : NetworkStream, ∀ b : Nat, ∀ v : Block,
      st.downloaded_data.length = 2 →
      cacheCount st.downloaded_data b = false →
      (set_data ⟨2, 2, 4⟩ st b v).downloaded_data.length = 2 ∧
      ((set_data ⟨2, 2, 4⟩ st b v).downloaded_data = (cacheInsert b v st.downloaded_data).tail ∨
       (set_data ⟨2, 2, 4⟩ st b v).downloaded_data = (cacheInsert b v st.downloaded_data).dropLast)) :=
  C5_residency_bound ⟨2, 2, 4⟩ { len := 10 } [(0, [1, 2]), (1, [3, 4]), (2, [5, 6])] rfl

/-! ## Claim C9: seek semantics and frame -/

/-- C9: on a `ready` stream, a `SEEK_SET`/`SEEK_CUR`/`SEEK_END` seek computes
its u64 target `new` (`offset`, `read_head + offset`, `len + offset`, each
wrapped mod `2^64`); if `new > len` it returns the failure sentinel `-1` with
the stream (in particular `read_head`) unchanged, otherwise it sets
`read_head = new` and returns `new`; in both cases the block cache is
untouched. -/
theorem C9_seek_frame (st : NetworkStream) (offset : Int) (whence : Whence)
    (hready : st.ready = true)
    (hw : whence = Whence.set ∨ whence = Whence.cur ∨ whence = Whence.toEnd) :
    ∃ new_pos : Nat,
      (whence = Whence.set → new_pos = (offset % (U64 : Int)).toNat) ∧
      (whence = Whence.cur → new_pos = (((st.read_head : Int) + offset) % (U64 : Int)).toNat) ∧
      (whence = Whence.toEnd → new_pos = (((st.len : Int) + offset) % (U64 : Int)).toNat) ∧
      (new_pos > st.len → seek_network_stream st offset whence = (st, -1)) ∧
      (¬ new_pos > st.len →
        seek_network_stream st offset whence =
          ({ st with read_head := new_pos }, (new_pos : Int))) ∧
      (seek_network_stream st offset whence).1.downloaded_data = st.downloaded_data := by
  have hnotsize : ∀ w, w = Whence.set ∨ w = Whence.cur ∨ w = Whence.toEnd →
      (w = Whence.avsize) = False := by
    intro w h
    rcases h with h | h | h <;> subst h <;> simp
  rcases hw with h | h | h <;> subst h
  · refine ⟨(offset % (U64 : Int)).toNat, fun _ => rfl, by simp, by simp, ?_, ?_, ?_⟩
    · intro hgt
      simp [seek_network_stream, hready, hgt]
    · intro hle
      simp [seek_network_stream, hready, hle]
    · by_cases hgt : (offset % (U64 : Int)).toNat > st.len
      · simp [seek_network_stream, hready, hgt]
      · simp [seek_network_stream, hready, hgt]
  · refine ⟨(((st.read_head : Int) + offset) % (U64 : Int)).toNat, by simp, fun _ => rfl,
      by simp, ?_, ?_, ?_⟩
    · intro hgt
      simp [seek_network_stream, hready, hgt]
    · intro hle
      simp [seek_network_stream, hready, hle]
    · by_cases hgt : (((st.read_head : Int) + offset) % (U64 : Int)).toNat > st.len
      · simp [seek_network_stream, hready, hgt]
      · simp [seek_network_stream, hready, hgt]
  · refine ⟨(((st.len : Int) + offset) % (U64 : Int)).toNat, by simp, by simp,
      fun _ => rfl, ?_, ?_, ?_⟩
    · intro hgt
      simp [seek_network_stream, hready, hgt]
    · intro hle
      simp [seek_network_stream, hready, hle]
    · by_cases hgt : (((st.len : Int) + offset) % (U64 : Int)).toNat > st.len
      · simp [seek_network_stream, hready, hgt]
      · simp [seek_network_stream, hready, hgt]

/-- C9, witness: a backwards `SEEK_CUR` by 5 from `read_head = 10` on a
100-byte ready stream. -/
theorem C9_seek_frame_witness :
    let st : NetworkStream :=
      { ready := true, len := 100, read_head := 10, downloaded_data := [(0, [1])] }
    ∃ new_pos : Nat,
      (Whence.cur = Whence.set → new_pos = ((-5 : Int) % (U64 : Int)).toNat) ∧
      (Whence.cur = Whence.cur → new_pos = (((st.read_head : Int) + (-5 : Int)) % (U64 : Int)).toNat) ∧
      (Whence.cur = Whence.toEnd → new_pos = (((st.len : Int) + (-5 : Int)) % (U64 : Int)).toNat) ∧
      (new_pos > st.len → seek_network_stream st (-5) Whence.cur = (st, -1)) ∧
      (¬ new_pos > st.len →
        seek_network_stream st (-5) Whence.cur =
          ({ st with read_head := new_pos }, (new_pos : Int))) ∧
      (seek_network_stream st (-5) Whence.cur).1.downloaded_data = st.downloaded_data :=
  C9_seek_frame
    { ready := true, len := 100, read_head := 10, downloaded_data := [(0, [1])] }
    (-5) Whence.cur rfl (Or.inr (Or.inl rfl))

/-! ## Claim C10: whole-mode success with empty body -/

/-- C10: a whole-mode fetch with `fail == false` and a 2xx status but an
empty body takes the failure branch: `error` is set, `len` / `block_num` /
`ready` / the cache are all left as they were (in particular `ready` stays
`false`). -/
theorem C10_whole_empty_body (cfg : Config) (st : NetworkStream) (r : HttpResult)
    (hwhole : st.whole_download = true)
    (hfail : r.fail = false) (hsucc : r.status_code_is_success = true)
    (hempty : r.data = []) (hready : st.ready = false) :
    (handleWholeResult cfg st r).error = true ∧
    (handleWholeResult cfg st r).len = st.len ∧
    (handleWholeResult cfg st r).block_num = st.block_num ∧
    (handleWholeResult cfg st r).ready = false ∧
    (handleWholeResult cfg st r).downloaded_data = st.downloaded_data := by
  have hcond : ¬ (r.fail = false ∧ r.status_code_is_success = true ∧ r.data.length ≠ 0) := by
    simp [hempty]
  unfold handleWholeResult
  rw [if_neg hcond]
  split
  · simp [hready]
  · split
    · simp [hready]
    · simp [hready]

/-- C10, witness: a `200` response with an empty body on a fresh whole-mode
stream. -/
theorem C10_whole_empty_body_witness :
    let cfg : Config := ⟨2, 4, 4⟩
    let st : NetworkStream := { whole_download := true }
    let r : HttpResult := { data := [], status_code := 200, fail := false }
    (handleWholeResult cfg st r).error = true ∧
    (handleWholeResult cfg st r).len = st.len ∧
    (handleWholeResult cfg st r).block_num = st.block_num ∧
    (handleWholeResult cfg st r).ready = false ∧
    (handleWholeResult cfg st r).downloaded_data = st.downloaded_data :=
  C10_whole_empty_body ⟨2, 4, 4⟩ { whole_download := true }
    { data := [], status_code := 200, fail := false } rfl rfl (by decide) rfl rfl

/-! ## Claim C6: failure → status-code mapping -/

/-- C6, counterexample.  A ranged-mode fetch whose HTTP call fails with
status `404 Not Found` sets only `error`: `livestream_eof` stays `false`,
contradicting the claim that a 404-failing fetch (whole or ranged) also sets
`livestream_eof`. -/
theorem C6_counterexample :
    let cfg : Config := ⟨2, 4, 4⟩
    let st : NetworkStream := { ready := true, whole_download := false, len := 10, block_num := 5 }
    let r : HttpResult := { data := [], status_code := 404, fail := true }
    (handleRangedResult cfg st 0 2 r).error = true ∧
    (handleRangedResult cfg st 0 2 r).livestream_eof = false ∧
    (handleRangedResult cfg st 0 2 r).livestream_private = false := by
  decide

/-- C6, amended: the 204/404 → `livestream_eof` and 403 →
`livestream_private` mapping applies only to **whole-mode** fetch failures;
a failed ranged fetch sets only `error` and leaves both livestream flags,
the cache and `ready`/`len` unchanged. -/
theorem C6_amended (cfg : Config) (st_w st_r : NetworkStream) (r_w r_r : HttpResult)
    (block expected_len : Nat)
    (hfw : r_w.fail = true) (hfr : r_r.fail = true) :
    ((handleWholeResult cfg st_w r_w).error = true ∧
     (handleWholeResult cfg st_w r_w).livestream_eof =
       (st_w.livestream_eof || (r_w.status_code == 204 || r_w.status_code == 404)) ∧
     (handleWholeResult cfg st_w r_w).livestream_private =
       (st_w.livestream_private || r_w.status_code == 403)) ∧
    ((handleRangedResult cfg st_r block expected_len r_r).error = true ∧
     (handleRangedResult cfg st_r block expected_len r_r).livestream_eof = st_r.livestream_eof ∧
     (handleRangedResult cfg st_r block expected_len r_r).livestream_private
        = st_r.livestream_private ∧
     (handleRangedResult cfg st_r block expected_len r_r).downloaded_data
        = st_r.downloaded_data ∧
     (handleRangedResult cfg st_r block expected_len r_r).ready = st_r.ready ∧
     (handleRangedResult cfg st_r block expected_len r_r).len = st_r.len) := by
  constructor
  · have hcond : ¬ (r_w.fail = false ∧ r_w.status_code_is_success = true ∧
        r_w.data.length ≠ 0) := by
      simp [hfw]
    unfold handleWholeResult
    rw [if_neg hcond]
    split
    · rename_i h
      unfold HTTP_STATUS_CODE_NO_CONTENT HTTP_STATUS_CODE_NOT_FOUND at h
      rcases h with h | h <;> simp [h]
    · split
      · rename_i hno h
        unfold HTTP_STATUS_CODE_NO_CONTENT HTTP_STATUS_CODE_NOT_FOUND at hno
        unfold HTTP_STATUS_CODE_FORBIDDEN at h
        push_neg at hno
        have h1 : (r_w.status_code == 204) = false := by
          simp
          omega
        have h2 : (r_w.status_code == 404) = false := by
          simp
          omega
        simp [h, h1, h2]
      · rename_i hno hno2
        unfold HTTP_STATUS_CODE_NO_CONTENT HTTP_STATUS_CODE_NOT_FOUND at hno
        unfold HTTP_STATUS_CODE_FORBIDDEN at hno2
        push_neg at hno
        have h1 : (r_w.status_code == 204) = false := by
          simp
          omega
        have h2 : (r_w.status_code == 404) = false := by
          simp
          omega
        have h3 : (r_w.status_code == 403) = false := by
          simp
          omega
        simp [h1, h2, h3]
  · unfold handleRangedResult
    simp [hfr]

/-- C6, witness for the amended theorem: a whole-mode `404` failure and a
ranged `500` failure. -/
theorem C6_amended_witness :
    let cfg : Config := ⟨2, 4, 4⟩
    let st_w : NetworkStream := { whole_download := true }
    let st_r : NetworkStream := { ready := true, whole_download := false, len := 10, block_num := 5 }
    let r_w : HttpResult := { data := [], status_code := 404, fail := true }
    let r_r : HttpResult := { data := [], status_code := 500, fail := true }
    ((handleWholeResult cfg st_w r_w).error = true ∧
     (handleWholeResult cfg st_w r_w).livestream_eof =
       (st_w.livestream_eof || (r_w.status_code == 204 || r_w.status_code == 404)) ∧
     (handleWholeResult cfg st_w r_w).livestream_private =
       (st_w.livestream_private || r_w.status_code == 403)) ∧
    ((handleRangedResult cfg st_r 0 2 r_r).error = true ∧
     (handleRangedResult cfg st_r 0 2 r_r).livestream_eof = st_r.livestream_eof ∧
     (handleRangedResult cfg st_r 0 2 r_r).livestream_private = st_r.livestream_private ∧
     (handleRangedResult cfg st_r 0 2 r_r).downloaded_data = st_r.downloaded_data ∧
     (handleRangedResult cfg st_r 0 2 r_r).ready = st_r.ready ∧
     (handleRangedResult cfg st_r 0 2 r_r).len = st_r.len) :=
  C6_amended ⟨2, 4, 4⟩ { whole_download := true }
    { ready := true, whole_download := false, len := 10, block_num := 5 }
    { data := [], status_code := 404, fail := true }
    { data := [], status_code := 500, fail := true }
    0 2 rfl rfl

/-! ## Claim C8: coverage percentage -/

/-- C8, counterexample.  `BLOCK_SIZE = 2`, `len = 3`: both blocks of the
resource are resident with their correct byte lengths (2 and 1 — short final
block), yet `get_download_percentage` returns `400/3 ≠ 100`, because the code
computes `count · BLOCK_SIZE · 100 / len`, not the claimed
`Σ len(block) · 100 / len` (which here equals exactly `100`). -/
theorem C8_counterexample :
    let cfg : Config := ⟨2, 4, 4⟩
    let st : NetworkStream :=
      { ready := true, len := 3, block_num := 2, downloaded_data := [(0, [7, 7]), (1, [9])] }
    st.ready = true ∧
    cacheKeys st.downloaded_data = [0, 1] ∧
    (∀ p ∈ st.downloaded_data,
      (p.2 : Block).length = min cfg.BLOCK_SIZE (st.len - p.1 * cfg.BLOCK_SIZE)) ∧
    (st.downloaded_data.map (fun p => ((p.2 : Block).length : ℚ))).sum * 100 / (st.len : ℚ)
      = 100 ∧
    get_download_percentage cfg st ≠ 100 ∧
    get_download_percentage cfg st ≠
      (st.downloaded_data.map (fun p => ((p.2 : Block).length : ℚ))).sum * 100 / (st.len : ℚ) := by
  refine ⟨rfl, rfl, by decide, by norm_num [get_download_percentage], ?_, ?_⟩ <;>
    norm_num [get_download_percentage]

/-- C8, amended: `get_download_percentage` equals
`resident_count · BLOCK_SIZE · 100 / len`; this coincides with the claimed
`Σ_blocks len(block) · 100 / len` exactly when every resident block has full
length `BLOCK_SIZE` — a fully cached resource whose final block is short
reports more than 100, not 100. -/
theorem C8_amended (cfg : Config) (st : NetworkStream) (hready : st.ready = true)
    (hfull : ∀ p ∈ st.downloaded_data, (p.2 : Block).length = cfg.BLOCK_SIZE) :
    get_download_percentage cfg st =
      (st.downloaded_data.map (fun p => ((p.2 : Block).length : ℚ))).sum * 100 / (st.len : ℚ) := by
  unfold get_download_percentage
  have hmap : st.downloaded_data.map (fun p => ((p.2 : Block).length : ℚ)) =
      List.replicate st.downloaded_data.length ((cfg.BLOCK_SIZE : ℚ)) := by
    rw [List.eq_replicate]
    constructor
    · simp
    · intro q hq
      obtain ⟨p, hp, he⟩ := List.mem_map.mp hq
      rw [← he, hfull p hp]
  rw [hmap, List.sum_replicate, nsmul_eq_mul, div_mul_eq_mul_div]

/-- C8, witness for the amended theorem: two full-length blocks of a 4-byte
resource give `(2 · 2) · 100 / 4 = 100` under both formulas. -/
theorem C8_amended_witness :
    let cfg : Config := ⟨2, 4, 4⟩
    let st : NetworkStream :=
      { ready := true, len := 4, block_num := 2, downloaded_data := [(0, [1, 2]), (1, [3, 4])] }
    get_download_percentage cfg st =
      (st.downloaded_data.map (fun p => ((p.2 : Block).length : ℚ))).sum * 100 / (st.len : ℚ) :=
  C8_amended ⟨2, 4, 4⟩
    { ready := true, len := 4, block_num := 2, downloaded_data := [(0, [1, 2]), (1, [3, 4])] }
    rfl (by decide)

/-! ## Claim C7: `is_data_available` -/

/-- For a non-empty query, intersecting the range is the same as lying in
`[start / BLOCK_SIZE, (start + size - 1) / BLOCK_SIZE]`. -/
theorem blockIntersects_iff (cfg : Config) (hBS : 0 < cfg.BLOCK_SIZE)
    (start size b : Nat) (hsz : 0 < size) :
    blockIntersects cfg start size b ↔
      start / cfg.BLOCK_SIZE ≤ b ∧ b ≤ (start + size - 1) / cfg.BLOCK_SIZE := by
  unfold blockIntersects
  rw [max_lt_iff, lt_min_iff, lt_min_iff]
  have hmul : (b + 1) * cfg.BLOCK_SIZE = b * cfg.BLOCK_SIZE + cfg.BLOCK_SIZE :=
    Nat.succ_mul b _
  have hd1 : start / cfg.BLOCK_SIZE ≤ b ↔ start < (b + 1) * cfg.BLOCK_SIZE := by
    constructor
    · intro h
      exact (Nat.div_lt_iff_lt_mul hBS).mp (by omega)
    · intro h
      have := (Nat.div_lt_iff_lt_mul hBS).mpr h
      omega
  have hd2 : b ≤ (start + size - 1) / cfg.BLOCK_SIZE ↔
      b * cfg.BLOCK_SIZE ≤ start + size - 1 := Nat.le_div_iff_mul_le hBS
  constructor
  · rintro ⟨⟨h1, h2⟩, h3, h4⟩
    exact ⟨hd1.mpr h3, hd2.mpr (by omega)⟩
  · rintro ⟨h1, h2⟩
    have h3 := hd1.mp h1
    have h4 := hd2.mp h2
    exact ⟨⟨by omega, by omega⟩, h3, by omega⟩

/-- C7, counterexample.  With `BLOCK_SIZE = 4`, a ready 4-byte stream with an
empty cache: the empty range `start = 1, size = 0` is within bounds and
intersects no block, yet `is_data_available` returns `false` — the code's
`end = start + size - 1` makes it check the block containing byte
`start - 1`. -/
theorem C7_counterexample :
    let cfg : Config := ⟨4, 4, 8⟩
    let st : NetworkStream := { ready := true, len := 4, block_num := 1, downloaded_data := [] }
    st.ready = true ∧ 1 + 0 ≤ st.len ∧
    (∀ b : Nat, ¬ blockIntersects cfg 1 0 b) ∧
    is_data_available cfg st 1 0 = false := by
  refine ⟨rfl, by norm_num, ?_, ?_⟩
  · intro b
    unfold blockIntersects
    intro h
    have h1 : min ((b + 1) * 4) (1 + 0) ≤ 1 := min_le_right _ _
    have h2 : 1 ≤ max (b * 4) 1 := le_max_right _ _
    omega
  · decide

/-- C7, amended: for a **non-empty** u64 range (`size ≥ 1`,
`start + size < 2^64`), `is_data_available(start, size)` returns true iff the
stream is `ready`, `start + size ≤ len`, and every block intersecting
`[start, start + size)` is resident.  (For `size = 0` the code instead
queries the block containing `start - 1` — or, at `start = 0`, a wrapped
astronomical range — so the claimed "true on empty in-bounds ranges" fails.) -/
theorem C7_amended (cfg : Config) (st : NetworkStream) (start size : Nat)
    (hBS : 0 < cfg.BLOCK_SIZE) (hsz : 0 < size) (hov : start + size < U64) :
    is_data_available cfg st start size = true ↔
      (st.ready = true ∧ start + size ≤ st.len ∧
       ∀ b : Nat, blockIntersects cfg start size b →
         cacheCount st.downloaded_data b = true) := by
  unfold is_data_available
  by_cases hr : st.ready = true
  · rw [if_neg (by simp [hr])]
    have hmod : (start + size) % U64 = start + size := Nat.mod_eq_of_lt hov
    by_cases hlen : start + size ≤ st.len
    · rw [if_neg (by rw [hmod]; omega)]
      have he : (start + size + (U64 - 1)) % U64 = start + size - 1 := by
        have hU : 0 < U64 := by norm_num [U64]
        have h1 : start + size + (U64 - 1) = (start + size - 1) + U64 := by omega
        rw [h1, Nat.add_mod_right, Nat.mod_eq_of_lt (by omega)]
      rw [he]
      have hse : start / cfg.BLOCK_SIZE ≤ (start + size - 1) / cfg.BLOCK_SIZE :=
        Nat.div_le_div_right (by omega)
      rw [List.all_eq_true]
      constructor
      · intro hall
        refine ⟨hr, hlen, ?_⟩
        intro b hb
        obtain ⟨h1, h2⟩ := (blockIntersects_iff cfg hBS start size b hsz).mp hb
        exact hall b (List.mem_range'_1.mpr ⟨h1, by omega⟩)
      · rintro ⟨-, -, hint⟩ b hbmem
        obtain ⟨h1, h2⟩ := List.mem_range'_1.mp hbmem
        exact hint b ((blockIntersects_iff cfg hBS start size b hsz).mpr ⟨h1, by omega⟩)
    · rw [if_pos (by rw [hmod]; omega)]
      constructor
      · intro h
        exact absurd h (by simp)
      · rintro ⟨-, h, -⟩
        omega
  · rw [if_pos (by simpa using hr)]
    constructor
    · intro h
      exact absurd h (by simp)
    · rintro ⟨h, -, -⟩
      exact absurd h hr

/-- C7, witness for the amended theorem: `BLOCK_SIZE = 4`, blocks 0 and 1
resident, query `[2, 6)`. -/
theorem C7_amended_witness :
    let cfg : Config := ⟨4, 8, 8⟩
    let st : NetworkStream :=
      { ready := true, len := 8, block_num := 2,
        downloaded_data := [(0, [1, 2, 3, 4]), (1, [5, 6, 7, 8])] }
    is_data_available cfg st 2 4 = true ↔
      (st.ready = true ∧ 2 + 4 ≤ st.len ∧
       ∀ b : Nat, blockIntersects cfg 2 4 b → cacheCount st.downloaded_data b = true) :=
  C7_amended ⟨4, 8, 8⟩
    { ready := true, len := 8, block_num := 2,
      downloaded_data := [(0, [1, 2, 3, 4]), (1, [5, 6, 7, 8])] }
    2 4 (by decide) (by decide) (by norm_num [U64])

/-! ## Scan lemmas for the scheduler -/

theorem fnd_scan_ge (cfg : Config) (st : NetworkStream) (rhb b : Nat) :
    b ≤ fnd_scan cfg st rhb b := by
  induction b using fnd_scan.induct cfg st rhb with
  | case1 b h1 h2 =>
    rw [fnd_scan, if_pos h1, if_pos h2]
    omega
  | case2 b h1 h2 ih =>
    rw [fnd_scan, if_pos h1, if_neg h2]
    omega
  | case3 b h1 =>
    rw [fnd_scan, if_neg h1]

theorem fnd_scan_le_bound (cfg : Config) (st : NetworkStream) (rhb b : Nat)
    (hb : b < rhb + cfg.MAX_FORWARD_READ_BLOCKS) :
    fnd_scan cfg st rhb b ≤ rhb + cfg.MAX_FORWARD_READ_BLOCKS := by
  induction b using fnd_scan.induct cfg st rhb with
  | case1 b h1 h2 =>
    rw [fnd_scan, if_pos h1, if_pos h2]
    omega
  | case2 b h1 h2 ih =>
    rw [fnd_scan, if_pos h1, if_neg h2]
    exact ih (by omega)
  | case3 b h1 =>
    rw [fnd_scan, if_neg h1]
    omega

theorem fnd_scan_le_max (cfg : Config) (st : NetworkStream) (rhb b : Nat) :
    fnd_scan cfg st rhb b ≤ max b st.block_num := by
  induction b using fnd_scan.induct cfg st rhb with
  | case1 b h1 h2 =>
    rw [fnd_scan, if_pos h1, if_pos h2]
    have h3 : b < st.block_num := h1.1
    have h4 := le_max_right b st.block_num
    omega
  | case2 b h1 h2 ih =>
    rw [fnd_scan, if_pos h1, if_neg h2]
    have h3 : b < st.block_num := h1.1
    have e1 : max (b + 1) st.block_num = st.block_num := Nat.max_eq_right (by omega)
    have e2 : max b st.block_num = st.block_num := Nat.max_eq_right (by omega)
    omega
  | case3 b h1 =>
    rw [fnd_scan, if_neg h1]
    exact le_max_left _ _

theorem fnd_scan_moved (cfg : Config) (st : NetworkStream) (rhb b : Nat)
    (hne : fnd_scan cfg st rhb b ≠ b) :
    b < st.block_num ∧ cacheCount st.downloaded_data b = true := by
  rw [fnd_scan] at hne
  split at hne
  · assumption
  · exact absurd rfl hne

/-- A bounded scan that did not end on the forward-window boundary agrees
with the unbounded fetch-time rescan. -/
theorem fnd_scan_escape (cfg : Config) (st : NetworkStream) (rhb b : Nat)
    (hne : fnd_scan cfg st rhb b ≠ rhb + cfg.MAX_FORWARD_READ_BLOCKS) :
    fnd_scan cfg st rhb b = scan_unbounded cfg st b := by
  induction b using fnd_scan.induct cfg st rhb with
  | case1 b h1 h2 =>
    rw [fnd_scan, if_pos h1, if_pos h2] at hne
    exact absurd h2 hne
  | case2 b h1 h2 ih =>
    rw [fnd_scan, if_pos h1, if_neg h2] at hne ⊢
    rw [scan_unbounded, if_pos h1]
    exact ih hne
  | case3 b h1 =>
    rw [fnd_scan, if_neg h1]
    rw [scan_unbounded, if_neg h1]

/-- Under stream well-formedness, every competing margin is below the
initial `margin_percentage_min = 1000`. -/
theorem margin_lt_1000 (cfg : Config) (st : NetworkStream)
    (hBS : 0 < cfg.BLOCK_SIZE) (hwf : StreamWF cfg st) (hready : st.ready = true)
    (hneed : needsBlock cfg st) :
    margin cfg st (first_not_downloaded cfg st (st.read_head / cfg.BLOCK_SIZE)) < 1000 := by
  obtain ⟨hlen, hbn⟩ := hwf hready
  unfold margin
  split
  · norm_num
  · rename_i hne
    have hge : st.read_head / cfg.BLOCK_SIZE ≤
        first_not_downloaded cfg st (st.read_head / cfg.BLOCK_SIZE) :=
      fnd_scan_ge cfg st _ _
    have hle : first_not_downloaded cfg st (st.read_head / cfg.BLOCK_SIZE) ≤
        max (st.read_head / cfg.BLOCK_SIZE) st.block_num :=
      fnd_scan_le_max cfg st _ _
    have hmoved : st.read_head / cfg.BLOCK_SIZE < st.block_num :=
      (fnd_scan_moved cfg st _ _ hne).1
    have hlt_bn : first_not_downloaded cfg st (st.read_head / cfg.BLOCK_SIZE)
        < st.block_num := by
      have e1 : max (st.read_head / cfg.BLOCK_SIZE) st.block_num = st.block_num :=
        Nat.max_eq_right (by omega)
      have h2 := hneed.1
      omega
    have hmul : first_not_downloaded cfg st (st.read_head / cfg.BLOCK_SIZE)
        * cfg.BLOCK_SIZE < st.len := by
      rw [hbn] at hlt_bn
      have h2 := (Nat.le_div_iff_mul_le hBS).mp (by omega :
        first_not_downloaded cfg st (st.read_head / cfg.BLOCK_SIZE) + 1 ≤
          (st.len + cfg.BLOCK_SIZE - 1) / cfg.BLOCK_SIZE)
      have h4 : (first_not_downloaded cfg st (st.read_head / cfg.BLOCK_SIZE) + 1)
          * cfg.BLOCK_SIZE =
          first_not_downloaded cfg st (st.read_head / cfg.BLOCK_SIZE) * cfg.BLOCK_SIZE
            + cfg.BLOCK_SIZE := Nat.succ_mul _ _
      omega
    have hnum : first_not_downloaded cfg st (st.read_head / cfg.BLOCK_SIZE)
        * cfg.BLOCK_SIZE - st.read_head < st.len := by omega
    have hq : ((first_not_downloaded cfg st (st.read_head / cfg.BLOCK_SIZE)
        * cfg.BLOCK_SIZE - st.read_head : Nat) : ℚ) / (st.len : ℚ) < 1 := by
      rw [div_lt_one (by exact_mod_cast hlen)]
      exact_mod_cast hnum
    have h100 : ((first_not_downloaded cfg st (st.read_head / cfg.BLOCK_SIZE)
        * cfg.BLOCK_SIZE - st.read_head : Nat) : ℚ) / (st.len : ℚ) * 100 < 1 * 100 :=
      mul_lt_mul_of_pos_right hq (by norm_num)
    calc ((first_not_downloaded cfg st (st.read_head / cfg.BLOCK_SIZE)
          * cfg.BLOCK_SIZE - st.read_head : Nat) : ℚ) / (st.len : ℚ) * 100
        < 1 * 100 := h100
      _ ≤ 1000 := by norm_num

/-! ## The stream-selection loop: invariant bookkeeping -/

theorem slotAt_of_drop_cons {streams : List (Option NetworkStream)} {i0 : Nat}
    {os : Option NetworkStream} {rest : List (Option NetworkStream)}
    (h : streams.drop i0 = os :: rest) : streams.get? i0 = some os := by
  have h2 := List.get?_drop streams i0 0
  rw [h] at h2
  simpa using h2.symm

theorem drop_succ_of_drop_cons {streams : List (Option NetworkStream)} {i0 : Nat}
    {os : Option NetworkStream} {rest : List (Option NetworkStream)}
    (h : streams.drop i0 = os :: rest) : streams.drop (i0 + 1) = rest := by
  have h2 := (List.tail_drop streams i0).symm
  rw [h2, h]
  rfl

theorem slotAt_none_of_drop_nil {streams : List (Option NetworkStream)} {i0 : Nat}
    (h : streams.drop i0 = []) {j : Nat} (hj : i0 ≤ j) : slotAt streams j = none := by
  have hlen : streams.length ≤ i0 := by
    by_contra hc
    push_neg at hc
    have := List.drop_eq_nil_iff.mp h
    omega
  unfold slotAt
  rw [List.get?_eq_none.mpr (by omega)]
  rfl

theorem SelInv_extend_skip {cfg : Config} {streams : List (Option NetworkStream)}
    {i0 : Nat} {best : Option Nat} {mmin : ℚ}
    (hinv : SelInv cfg streams i0 best mmin) (hnc : ¬ isCandidate cfg streams i0) :
    SelInv cfg streams (i0 + 1) best mmin := by
  rcases hinv with ⟨h1, h2, h3⟩ | ⟨b, h1, h2, h3, h4, h5⟩
  · refine Or.inl ⟨h1, h2, ?_⟩
    intro j hj hc
    rcases Nat.lt_succ_iff_lt_or_eq.mp hj with h | h
    · exact h3 j h hc
    · subst h
      exact hnc hc
  · refine Or.inr ⟨b, h1, by omega, h3, h4, ?_⟩
    intro j hj hc
    rcases Nat.lt_succ_iff_lt_or_eq.mp hj with h | h
    · exact h5 j h hc
    · subst h
      exact absurd hc hnc

theorem SelInv_update {cfg : Config} {streams : List (Option NetworkStream)}
    {i0 : Nat} {best : Option Nat} {mmin : ℚ}
    (hinv : SelInv cfg streams i0 best mmin)
    (hcand : isCandidate cfg streams i0)
    (hm : marginAt cfg streams i0 < mmin) :
    SelInv cfg streams (i0 + 1) (some i0) (marginAt cfg streams i0) := by
  refine Or.inr ⟨i0, rfl, by omega, hcand, rfl, ?_⟩
  intro j hj hc
  rcases Nat.lt_succ_iff_lt_or_eq.mp hj with h | h
  · rcases hinv with ⟨-, h2, h3⟩ | ⟨b, -, -, -, h4, h5⟩
    · exact absurd hc (h3 j h)
    · rcases h5 j h hc with h6 | ⟨h6, -⟩
      · exact Or.inl (lt_trans hm h6)
      · exact Or.inl (h6 ▸ hm)
  · subst h
    exact Or.inr ⟨rfl, le_refl _⟩

theorem SelInv_keep {cfg : Config} {streams : List (Option NetworkStream)}
    {i0 : Nat} {best : Option Nat} {mmin : ℚ}
    (hinv : SelInv cfg streams i0 best mmin)
    (hcand : isCandidate cfg streams i0)
    (hmlt : marginAt cfg streams i0 < 1000)
    (hm : mmin ≤ marginAt cfg streams i0) :
    SelInv cfg streams (i0 + 1) best mmin := by
  rcases hinv with ⟨h1, h2, h3⟩ | ⟨b, h1, h2, h3, h4, h5⟩
  · exfalso
    rw [h2] at hm
    exact absurd (lt_of_le_of_lt hm hmlt) (lt_irrefl _)
  · refine Or.inr ⟨b, h1, by omega, h3, h4, ?_⟩
    intro j hj hc
    rcases Nat.lt_succ_iff_lt_or_eq.mp hj with h | h
    · exact h5 j h hc
    · subst h
      rcases eq_or_lt_of_le hm with he | hlt

      · exact Or.inr ⟨he.symm, by omega⟩
      · exact Or.inl hlt

theorem SelPost_shift {cfg : Config} {streams : List (Option NetworkStream)}
    {i0 : Nat} {res : Option Nat}
    (hnu : ¬ initUrgent streams i0)
    (h : SelPost cfg streams (i0 + 1) res) : SelPost cfg streams i0 res := by
  obtain ⟨hA, hB⟩ := h
  constructor
  · intro j hj hurg hmin
    have hj2 : i0 + 1 ≤ j := by
      rcases Nat.eq_or_lt_of_le hj with h1 | h1
      · exfalso
        apply hnu
        rwa [h1]
      · omega
    exact hA j hj2 hurg (fun j2 hj2a hj2b => hmin j2 (by omega) hj2b)
  · intro hnourg
    exact hB (fun j hj => hnourg j (by omega))

theorem SelPost_urgent {cfg : Config} {streams : List (Option NetworkStream)} {i0 : Nat}
    (hurg : initUrgent streams i0) : SelPost cfg streams i0 (some i0) := by
  constructor
  · intro j hj hjurg hmin
    have hji : j = i0 := by
      by_contra hne
      exact hmin i0 (le_refl _) (by omega) hurg
    rw [hji]
  · intro hnourg
    exact absurd hurg (hnourg i0 (le_refl _))

/-- The selection fold satisfies `SelPost` from any position whose
accumulator satisfies the invariant. -/
theorem select_go_post (cfg : Config) (streams : List (Option NetworkStream))
    (hBS : 0 < cfg.BLOCK_SIZE)
    (hwf : ∀ i st, slotAt streams i = some st → StreamWF cfg st)
    (hq : ∀ i st, slotAt streams i = some st → st.quit_request = false) :
    ∀ (l : List (Option NetworkStream)) (i0 : Nat), streams.drop i0 = l →
      ∀ (best : Option Nat) (mmin : ℚ), SelInv cfg streams i0 best mmin →
        SelPost cfg streams i0 (select_go cfg l i0 best mmin) := by
  intro l
  induction l with
  | nil =>
    intro i0 hdrop best mmin hinv
    have hnone : ∀ j, i0 ≤ j → slotAt streams j = none :=
      fun j hj => slotAt_none_of_drop_nil hdrop hj
    constructor
    · intro j hj hurg hmin
      obtain ⟨st, hst, -, -⟩ := hurg
      rw [hnone j hj] at hst
      exact absurd hst (by simp)
    · intro hnourg
      constructor
      · intro i hsel
        rcases hinv with ⟨hb, -, -⟩ | ⟨b, hb, hblt, hbcand, hm, hbound⟩
        · rw [show select_go cfg [] i0 best mmin = best from rfl, hb] at hsel
          exact absurd hsel (by simp)
        · rw [show select_go cfg [] i0 best mmin = best from rfl, hb] at hsel
          injection hsel with hbi
          subst hbi
          refine ⟨hbcand, ?_⟩
          intro j hjc
          by_cases hjlt : j < i0
          · rcases hbound j hjlt hjc with h | ⟨h1, h2⟩
            · exact Or.inl (hm ▸ h)
            · exact Or.inr ⟨hm ▸ h1.symm, h2⟩
          · obtain ⟨stj, hstj, -⟩ := hjc
            rw [hnone j (by omega)] at hstj
            exact absurd hstj (by simp)
      · intro hselnone j hjc
        rw [show select_go cfg [] i0 best mmin = best from rfl] at hselnone
        by_cases hjlt : j < i0
        · rcases hinv with ⟨-, -, hnc⟩ | ⟨b, hb, -⟩
          · exact hnc j hjlt hjc
          · rw [hselnone] at hb
            exact absurd hb (by simp)
        · obtain ⟨stj, hstj, -⟩ := hjc
          rw [hnone j (by omega)] at hstj
          exact absurd hstj (by simp)
  | cons os rest ih =>
    intro i0 hdrop best mmin hinv
    have hget : streams.get? i0 = some os := slotAt_of_drop_cons hdrop
    have hdrop2 : streams.drop (i0 + 1) = rest := drop_succ_of_drop_cons hdrop
    cases os with
    | none =>
      have hslot : slotAt streams i0 = none := by
        unfold slotAt
        rw [hget]
        rfl
      have hnu : ¬ initUrgent streams i0 := by
        rintro ⟨st2, hst2, -, -⟩
        rw [hslot] at hst2
        exact absurd hst2 (by simp)
      have hnc : ¬ isCandidate cfg streams i0 := by
        rintro ⟨st2, hst2, -, -⟩
        rw [hslot] at hst2
        exact absurd hst2 (by simp)
      rw [show select_go cfg (none :: rest) i0 best mmin =
            select_go cfg rest (i0 + 1) best mmin from rfl]
      exact SelPost_shift hnu (ih (i0 + 1) hdrop2 best mmin (SelInv_extend_skip hinv hnc))
    | some st =>
      have hslot : slotAt streams i0 = some st := by
        unfold slotAt
        rw [hget]
        rfl
      have hqs : st.quit_request = false := hq i0 st hslot
      have hqneg : ¬ (st.quit_request = true) := by simp [hqs]
      by_cases herr : st.error = true
      · have e : select_go cfg (some st :: rest) i0 best mmin =
            select_go cfg rest (i0 + 1) best mmin := by
          simp only [select_go]
          rw [if_neg hqneg, if_pos herr]
        rw [e]
        have hnu : ¬ initUrgent streams i0 := by
          rintro ⟨st2, hst2, hns, -⟩
          rw [hslot] at hst2
          injection hst2 with hst2
          subst hst2
          exact absurd herr (by simp [hns.1])
        have hnc : ¬ isCandidate cfg streams i0 := by
          rintro ⟨st2, hst2, hns, -⟩
          rw [hslot] at hst2
          injection hst2 with hst2
          subst hst2
          exact absurd herr (by simp [hns.1])
        exact SelPost_shift hnu (ih (i0 + 1) hdrop2 best mmin (SelInv_extend_skip hinv hnc))
      · have herr2 : st.error = false := by simpa using herr
        by_cases hsus : st.suspend_request = true
        · have e : select_go cfg (some st :: rest) i0 best mmin =
              select_go cfg rest (i0 + 1) best mmin := by
            simp only [select_go]
            rw [if_neg hqneg, if_neg herr, if_pos hsus]
          rw [e]
          have hnu : ¬ initUrgent streams i0 := by
            rintro ⟨st2, hst2, hns, -⟩
            rw [hslot] at hst2
            injection hst2 with hst2
            subst hst2
            exact absurd hsus (by simp [hns.2.1])
          have hnc : ¬ isCandidate cfg streams i0 := by
            rintro ⟨st2, hst2, hns, -⟩
            rw [hslot] at hst2
            injection hst2 with hst2
            subst hst2
            exact absurd hsus (by simp [hns.2.1])
          exact SelPost_shift hnu (ih (i0 + 1) hdrop2 best mmin (SelInv_extend_skip hinv hnc))
        · have hsus2 : st.suspend_request = false := by simpa using hsus
          by_cases hrd : st.ready = false
          · have e : select_go cfg (some st :: rest) i0 best mmin = some i0 := by
              simp only [select_go]
              rw [if_neg hqneg, if_neg herr, if_neg hsus, if_pos hrd]
            rw [e]
            refine SelPost_urgent ⟨st, hslot, ⟨herr2, hsus2, ?_⟩, hrd⟩
            rintro ⟨-, hcon⟩
            rw [hrd] at hcon
            exact absurd hcon (by simp)
          · have hrd2 : st.ready = true := by simpa using hrd
            by_cases hwh : st.whole_download = true
            · have e : select_go cfg (some st :: rest) i0 best mmin =
                  select_go cfg rest (i0 + 1) best mmin := by
                simp only [select_go]
                rw [if_neg hqneg, if_neg herr, if_neg hsus, if_neg hrd, if_pos hwh]
              rw [e]
              have hnu : ¬ initUrgent streams i0 := by
                rintro ⟨st2, hst2, -, hr⟩
                rw [hslot] at hst2
                injection hst2 with hst2
                subst hst2
                rw [hrd2] at hr
                exact absurd hr (by simp)
              have hnc : ¬ isCandidate cfg streams i0 := by
                rintro ⟨st2, hst2, hns, -⟩
                rw [hslot] at hst2
                injection hst2 with hst2
                subst hst2
                exact hns.2.2 ⟨hwh, hrd2⟩
              exact SelPost_shift hnu
                (ih (i0 + 1) hdrop2 best mmin (SelInv_extend_skip hinv hnc))
            · have hwh2 : st.whole_download = false := by simpa using hwh
              have hnu : ¬ initUrgent streams i0 := by
                rintro ⟨st2, hst2, -, hr⟩
                rw [hslot] at hst2
                injection hst2 with hst2
                subst hst2
                rw [hrd2] at hr
                exact absurd hr (by simp)
              by_cases hf1 : first_not_downloaded cfg st (st.read_head / cfg.BLOCK_SIZE)
                  = st.block_num
              · have e : select_go cfg (some st :: rest) i0 best mmin =
                    select_go cfg rest (i0 + 1) best mmin := by
                  simp only [select_go]
                  rw [if_neg hqneg, if_neg herr, if_neg hsus, if_neg hrd, if_neg hwh,
                      if_pos hf1]
                rw [e]
                have hnc : ¬ isCandidate cfg streams i0 := by
                  rintro ⟨st2, hst2, -, -, -, hnb⟩
                  rw [hslot] at hst2
                  injection hst2 with hst2
                  subst hst2
                  exact hnb.1 hf1
                exact SelPost_shift hnu
                  (ih (i0 + 1) hdrop2 best mmin (SelInv_extend_skip hinv hnc))
              · by_cases hf2 : first_not_downloaded cfg st (st.read_head / cfg.BLOCK_SIZE)
                    = st.read_head / cfg.BLOCK_SIZE + cfg.MAX_FORWARD_READ_BLOCKS
                · have e : select_go cfg (some st :: rest) i0 best mmin =
                      select_go cfg rest (i0 + 1) best mmin := by
                    simp only [select_go]
                    rw [if_neg hqneg, if_neg herr, if_neg hsus, if_neg hrd, if_neg hwh,
                        if_neg hf1, if_pos hf2]
                  rw [e]
                  have hnc : ¬ isCandidate cfg streams i0 := by
                    rintro ⟨st2, hst2, -, -, -, hnb⟩
                    rw [hslot] at hst2
                    injection hst2 with hst2
                    subst hst2
                    exact hnb.2 hf2
                  exact SelPost_shift hnu
                    (ih (i0 + 1) hdrop2 best mmin (SelInv_extend_skip hinv hnc))
                · have hcand : isCandidate cfg streams i0 := by
                    refine ⟨st, hslot, ⟨herr2, hsus2, ?_⟩, hrd2, hwh2, hf1, hf2⟩
                    rintro ⟨hcon, -⟩
                    rw [hwh2] at hcon
                    exact absurd hcon (by simp)
                  have hAt : marginAt cfg streams i0 =
                      margin cfg st
                        (first_not_downloaded cfg st (st.read_head / cfg.BLOCK_SIZE)) := by
                    unfold marginAt
                    rw [hslot]
                  by_cases hcmp : mmin >
                      margin cfg st (first_not_downloaded cfg st (st.read_head / cfg.BLOCK_SIZE))
                  · have e : select_go cfg (some st :: rest) i0 best mmin =
                        select_go cfg rest (i0 + 1) (some i0)
                          (margin cfg st
                            (first_not_downloaded cfg st (st.read_head / cfg.BLOCK_SIZE))) := by
                      simp only [select_go]
                      rw [if_neg hqneg, if_neg herr, if_neg hsus, if_neg hrd, if_neg hwh,
                          if_neg hf1, if_neg hf2, if_pos hcmp]
                    rw [e]
                    have hinv2 := SelInv_update hinv hcand (by rw [hAt]; exact hcmp)
                    rw [hAt] at hinv2
                    exact SelPost_shift hnu (ih (i0 + 1) hdrop2 (some i0) _ hinv2)
                  · have e : select_go cfg (some st :: rest) i0 best mmin =
                        select_go cfg rest (i0 + 1) best mmin := by
                      simp only [select_go]
                      rw [if_neg hqneg, if_neg herr, if_neg hsus, if_neg hrd, if_neg hwh,
                          if_neg hf1, if_neg hf2, if_neg hcmp]
                    rw [e]
                    have hmlt : marginAt cfg streams i0 < 1000 := by
                      rw [hAt]
                      exact margin_lt_1000 cfg st hBS (hwf i0 st hslot) hrd2 ⟨hf1, hf2⟩
                    have hmle : mmin ≤ marginAt cfg streams i0 := by
                      rw [hAt]
                      exact le_of_not_lt hcmp
                    exact SelPost_shift hnu
                      (ih (i0 + 1) hdrop2 best mmin (SelInv_keep hinv hcand hmlt hmle))

/-- One selection pass satisfies `SelPost` from slot `0`. -/
theorem select_stream_post (cfg : Config) (streams : List (Option NetworkStream))
    (hBS : 0 < cfg.BLOCK_SIZE)
    (hwf : ∀ i st, slotAt streams i = some st → StreamWF cfg st)
    (hq : ∀ i st, slotAt streams i = some st → st.quit_request = false) :
    SelPost cfg streams 0 (select_stream cfg streams) := by
  unfold select_stream
  exact select_go_post cfg streams hBS hwf hq streams 0 rfl none 1000
    (Or.inl ⟨rfl, rfl, fun j hj => absurd hj (Nat.not_lt_zero j)⟩)

/-! ## Claim C2: scheduler stream selection -/

/-- C2: on a selection pass over quit-free, well-formed streams:
(1) a selected slot is never flagged `error` / `suspend_request` nor a
fully-cached whole-download; (2) the first initialization-urgent (non-ready)
slot is selected when one exists; (3) otherwise any selected slot is a margin
candidate whose `margin_percent` is minimal, earliest slot on ties, and (4)
some slot is selected whenever a candidate exists. -/
theorem C2_scheduler_selection (cfg : Config) (streams : List (Option NetworkStream))
    (hBS : 0 < cfg.BLOCK_SIZE)
    (hwf : ∀ i st, slotAt streams i = some st → StreamWF cfg st)
    (hq : ∀ i st, slotAt streams i = some st → st.quit_request = false) :
    (∀ i, select_stream cfg streams = some i →
       ∃ st, slotAt streams i = some st ∧ notSkipped st) ∧
    (∀ j, initUrgent streams j → (∀ j2, j2 < j → ¬ initUrgent streams j2) →
       select_stream cfg streams = some j) ∧
    ((∀ j, ¬ initUrgent streams j) →
       (∀ i, select_stream cfg streams = some i →
          isCandidate cfg streams i ∧
          ∀ j, isCandidate cfg streams j →
            (marginAt cfg streams i < marginAt cfg streams j ∨
             (marginAt cfg streams i = marginAt cfg streams j ∧ i ≤ j))) ∧
       ((∃ j, isCandidate cfg streams j) → ∃ i, select_stream cfg streams = some i)) := by
  obtain ⟨hA, hB⟩ := select_stream_post cfg streams hBS hwf hq
  refine ⟨?_, ?_, ?_⟩
  · intro i hsel
    by_cases hex : ∃ j, initUrgent streams j
    · haveI : DecidablePred (initUrgent streams) := fun _ => Classical.propDecidable _
      have hspec := Nat.find_spec hex
      have hsel2 := hA (Nat.find hex) (Nat.zero_le _) hspec
        (fun j2 _ h2 => Nat.find_min hex h2)
      rw [hsel2] at hsel
      injection hsel with hsel
      subst hsel
      obtain ⟨st, hst, hns, -⟩ := hspec
      exact ⟨st, hst, hns⟩
    · push_neg at hex
      obtain ⟨hcand, -⟩ := (hB (fun j _ => hex j)).1 i hsel
      obtain ⟨st, hst, hns, -⟩ := hcand
      exact ⟨st, hst, hns⟩
  · intro j hurg hmin
    exact hA j (Nat.zero_le _) hurg (fun j2 _ h2 => hmin j2 h2)
  · intro hnourg
    have hB2 := hB (fun j _ => hnourg j)
    refine ⟨hB2.1, ?_⟩
    rintro ⟨j, hj⟩
    cases hsel : select_stream cfg streams with
    | none => exact absurd hj (hB2.2 hsel j)
    | some i => exact ⟨i, rfl⟩

/-- C2, witness: slot 0 holds a ready ranged candidate, slot 1 a not-yet-ready
stream; the initialization-urgent slot 1 is selected. -/
theorem C2_scheduler_selection_witness :
    select_stream ⟨1, 8, 8⟩
      [some { ready := true, len := 10, block_num := 10, read_head := 0 },
       some { ready := false }] = some 1 := by
  have hwf : ∀ i st, slotAt
      [some { ready := true, len := 10, block_num := 10, read_head := 0 },
       some ({ ready := false } : NetworkStream)] i = some st →
      StreamWF ⟨1, 8, 8⟩ st := by
    intro i st hs
    match i with
    | 0 =>
      rw [show slotAt
          [some { ready := true, len := 10, block_num := 10, read_head := 0 },
           some ({ ready := false } : NetworkStream)] 0 =
          some { ready := true, len := 10, block_num := 10, read_head := 0 } from rfl] at hs
      injection hs with hs
      rw [← hs]
      unfold StreamWF
      decide
    | 1 =>
      rw [show slotAt
          [some { ready := true, len := 10, block_num := 10, read_head := 0 },
           some ({ ready := false } : NetworkStream)] 1 =
          some { ready := false } from rfl] at hs
      injection hs with hs
      rw [← hs]
      unfold StreamWF
      decide
    | (n + 2) =>
      rw [show slotAt
          [some { ready := true, len := 10, block_num := 10, read_head := 0 },
           some ({ ready := false } : NetworkStream)] (n + 2) = none from rfl] at hs
      exact absurd hs (by simp)
  have hq : ∀ i st, slotAt
      [some { ready := true, len := 10, block_num := 10, read_head := 0 },
       some ({ ready := false } : NetworkStream)] i = some st →
      st.quit_request = false := by
    intro i st hs
    match i with
    | 0 =>
      rw [show slotAt
          [some { ready := true, len := 10, block_num := 10, read_head := 0 },
           some ({ ready := false } : NetworkStream)] 0 =
          some { ready := true, len := 10, block_num := 10, read_head := 0 } from rfl] at hs
      injection hs with hs
      rw [← hs]
    | 1 =>
      rw [show slotAt
          [some { ready := true, len := 10, block_num := 10, read_head := 0 },
           some ({ ready := false } : NetworkStream)] 1 =
          some { ready := false } from rfl] at hs
      injection hs with hs
      rw [← hs]
    | (n + 2) =>
      rw [show slotAt
          [some { ready := true, len := 10, block_num := 10, read_head := 0 },
           some ({ ready := false } : NetworkStream)] (n + 2) = none from rfl] at hs
      exact absurd hs (by simp)
  have hmain := C2_scheduler_selection ⟨1, 8, 8⟩
    [some { ready := true, len := 10, block_num := 10, read_head := 0 },
     some { ready := false }] (by decide) hwf hq
  refine hmain.2.1 1 ⟨{ ready := false }, rfl, by unfold notSkipped; decide, rfl⟩ ?_
  intro j2 hj2
  match j2 with
  | 0 =>
    rintro ⟨st, hs, -, hr⟩
    rw [show slotAt
        [some { ready := true, len := 10, block_num := 10, read_head := 0 },
         some ({ ready := false } : NetworkStream)] 0 =
        some { ready := true, len := 10, block_num := 10, read_head := 0 } from rfl] at hs
    injection hs with hs
    rw [← hs] at hr
    exact absurd hr (by decide)

/-! ## Claim C3: the forward prefetch window -/

/-- C3: a ranged-mode fetch issued by the scheduler always targets a block
strictly below `cursor_block + MAX_FORWARD_READ_BLOCKS` (with the cursor
taken from the same `read_head` snapshot the selection used); since ranged
caches are only filled by such fetches, no cached block ever lies at or
beyond the forward-window boundary computed when its fetch was issued. -/
theorem C3_forward_window (cfg : Config) (streams : List (Option NetworkStream))
    (i : Nat) (st : NetworkStream) (b : Nat)
    (hBS : 0 < cfg.BLOCK_SIZE) (hMF : 0 < cfg.MAX_FORWARD_READ_BLOCKS)
    (hwf : ∀ i2 st2, slotAt streams i2 = some st2 → StreamWF cfg st2)
    (hq : ∀ i2 st2, slotAt streams i2 = some st2 → st2.quit_request = false)
    (hsel : select_stream cfg streams = some i)
    (hst : slotAt streams i = some st)
    (hranged : st.whole_download = false)
    (hfetch : ranged_fetch_block cfg st = some b) :
    b < st.read_head / cfg.BLOCK_SIZE + cfg.MAX_FORWARD_READ_BLOCKS := by
  obtain ⟨hA, hB⟩ := select_stream_post cfg streams hBS hwf hq
  by_cases hready : st.ready = true
  · have hcand : isCandidate cfg streams i := by
      by_cases hex : ∃ j, initUrgent streams j
      · exfalso
        haveI : DecidablePred (initUrgent streams) := fun _ => Classical.propDecidable _
        have hspec := Nat.find_spec hex
        have hsel2 := hA (Nat.find hex) (Nat.zero_le _) hspec
          (fun j2 _ h2 => Nat.find_min hex h2)
        rw [hsel2] at hsel
        injection hsel with hsel
        subst hsel
        obtain ⟨stu, hstu, -, hru⟩ := hspec
        rw [hst] at hstu
        injection hstu with hstu
        rw [← hstu] at hru
        rw [hready] at hru
        exact absurd hru (by simp)
      · push_neg at hex
        exact ((hB (fun j _ => hex j)).1 i hsel).1
    obtain ⟨st2, hst2, -, -, -, hnb⟩ := hcand
    rw [hst] at hst2
    injection hst2 with hst2
    subst hst2
    unfold ranged_fetch_block at hfetch
    rw [if_pos hready] at hfetch
    have hfetch2 : (if scan_unbounded cfg st (st.read_head / cfg.BLOCK_SIZE) = st.block_num
        then none
        else some (scan_unbounded cfg st (st.read_head / cfg.BLOCK_SIZE))) = some b := hfetch
    clear hfetch
    split at hfetch2
    · exact absurd hfetch2 (by simp)
    · injection hfetch2 with hfetch
      have hne := hnb.2
      rw [show first_not_downloaded cfg st (st.read_head / cfg.BLOCK_SIZE) =
          fnd_scan cfg st (st.read_head / cfg.BLOCK_SIZE) (st.read_head / cfg.BLOCK_SIZE)
          from rfl] at hne
      have hesc := fnd_scan_escape cfg st (st.read_head / cfg.BLOCK_SIZE)
        (st.read_head / cfg.BLOCK_SIZE) hne
      have hle := fnd_scan_le_bound cfg st (st.read_head / cfg.BLOCK_SIZE)
        (st.read_head / cfg.BLOCK_SIZE) (by omega)
      rw [← hfetch, ← hesc]
      omega
  · unfold ranged_fetch_block at hfetch
    rw [if_neg hready] at hfetch
    injection hfetch with hfetch
    rw [← hfetch]
    omega

/-- C3, witness: a single not-yet-`ready` ranged stream; the scheduler
selects it as initialization-urgent and its fetch targets the cursor block
`0`, within the window `[0, 2)`. -/
theorem C3_forward_window_witness :
    (0 : Nat) <
      ({ ready := false, whole_download := false, read_head := 0 } :
          NetworkStream).read_head / (1 : Nat) + 2 := by
  have hwf : ∀ i2 st2, slotAt
      [some ({ ready := false, whole_download := false, read_head := 0 } :
        NetworkStream)] i2 = some st2 → StreamWF ⟨1, 4, 2⟩ st2 := by
    intro i2 st2 hs
    match i2 with
    | 0 =>
      rw [show slotAt
          [some ({ ready := false, whole_download := false, read_head := 0 } :
            NetworkStream)] 0 =
          some { ready := false, whole_download := false, read_head := 0 } from rfl] at hs
      injection hs with hs
      rw [← hs]
      unfold StreamWF
      decide
    | (n + 1) =>
      rw [show slotAt
          [some ({ ready := false, whole_download := false, read_head := 0 } :
            NetworkStream)] (n + 1) = none from rfl] at hs
      exact absurd hs (by simp)
  have hq : ∀ i2 st2, slotAt
      [some ({ ready := false, whole_download := false, read_head := 0 } :
        NetworkStream)] i2 = some st2 → st2.quit_request = false := by
    intro i2 st2 hs
    match i2 with
    | 0 =>
      rw [show slotAt
          [some ({ ready := false, whole_download := false, read_head := 0 } :
            NetworkStream)] 0 =
          some { ready := false, whole_download := false, read_head := 0 } from rfl] at hs
      injection hs with hs
      rw [← hs]
    | (n + 1) =>
      rw [show slotAt
          [some ({ ready := false, whole_download := false, read_head := 0 } :
            NetworkStream)] (n + 1) = none from rfl] at hs
      exact absurd hs (by simp)
  exact C3_forward_window ⟨1, 4, 2⟩
    [some { ready := false, whole_download := false, read_head := 0 }]
    0 { ready := false, whole_download := false, read_head := 0 } 0
    (by decide) (by decide) hwf hq (by decide) rfl rfl (by decide)

/-! ## Sorted-map iterator lemmas for `get_data` -/

/-- On a sorted map, `find(b)` (here: dropping the keys `< b`) lands on the
entry for `b` when present, whose value is also what `lookup` returns. -/
theorem sorted_find {c : Cache} (hs : CacheSorted c) {b : Nat} {v : Block}
    (hmem : (b, v) ∈ c) :
    ∃ rest, c.dropWhile (fun q => decide (q.1 < b)) = (b, v) :: rest ∧
      List.lookup b c = some v := by
  induction c with
  | nil => exact absurd hmem (List.not_mem_nil _)
  | cons hd tl ih =>
    obtain ⟨k1, v1⟩ := hd
    unfold CacheSorted at hs
    rw [List.pairwise_cons] at hs
    obtain ⟨hlt, htl⟩ := hs
    by_cases hk : k1 < b
    · have hmem2 : (b, v) ∈ tl := by
        rcases List.mem_cons.mp hmem with h | h
        · have : b = k1 := congrArg Prod.fst h
          omega
        · exact h
      obtain ⟨rest, hdw, hlk⟩ := ih htl hmem2
      refine ⟨rest, ?_, ?_⟩
      · rw [List.dropWhile_cons]
        simp only [decide_eq_true_eq]
        rw [if_pos hk]
        exact hdw
      · rw [List.lookup_cons]
        have hbk : (b == k1) = false := by
          simp only [beq_eq_false_iff_ne, ne_eq]
          omega
        rw [hbk]
        exact hlk
    · have hhd : (b, v) = (k1, v1) := by
        rcases List.mem_cons.mp hmem with h | h
        · exact h
        · have : k1 < b := hlt _ h
          omega
      have hbk : b = k1 := congrArg Prod.fst hhd
      have hvv : v = v1 := congrArg Prod.snd hhd
      subst hbk
      subst hvv
      refine ⟨tl, ?_, ?_⟩
      · rw [List.dropWhile_cons]
        simp only [decide_eq_true_eq]
        rw [if_neg hk]
      · rw [List.lookup_cons]
        simp

/-- Advancing the iterator: once positioned on the entry for `b`, dropping
keys `< b + 1` yields exactly the remaining entries. -/
theorem sorted_find_step {c : Cache} (hs : CacheSorted c) {b : Nat} {v : Block}
    {rest : Cache}
    (hdw : c.dropWhile (fun q => decide (q.1 < b)) = (b, v) :: rest) :
    c.dropWhile (fun q => decide (q.1 < b + 1)) = rest := by
  induction c with
  | nil => simp at hdw
  | cons hd tl ih =>
    obtain ⟨k1, v1⟩ := hd
    unfold CacheSorted at hs
    rw [List.pairwise_cons] at hs
    obtain ⟨hlt, htl⟩ := hs
    by_cases hk : k1 < b
    · rw [List.dropWhile_cons] at hdw
      simp only [decide_eq_true_eq] at hdw
      rw [if_pos hk] at hdw
      rw [List.dropWhile_cons]
      simp only [decide_eq_true_eq]
      rw [if_pos (by omega)]
      exact ih htl hdw
    · rw [List.dropWhile_cons] at hdw
      simp only [decide_eq_true_eq] at hdw
      rw [if_neg hk] at hdw
      injection hdw with h1 h2
      have hk1 : k1 = b := congrArg Prod.fst h1
      rw [List.dropWhile_cons]
      simp only [decide_eq_true_eq]
      rw [if_pos (by omega)]
      rw [← h2]
      cases tl with
      | nil => rfl
      | cons hd2 tl2 =>
        rw [List.dropWhile_cons]
        have hnl : ¬ (hd2.1 < b + 1) := by
          have := hlt hd2 (by simp)
          omega
        simp only [decide_eq_true_eq]
        rw [if_neg hnl]

/-- Taking a contiguous slice `[q, r)` of a list, as a position map. -/
theorem take_drop_eq_range_map (d : List Nat) (q r : Nat) (hr : r ≤ d.length) :
    (d.take r).drop q = (List.range (r - q)).map (fun j => d.getD (q + j) 0) := by
  apply List.ext_get?
  intro n
  rw [List.get?_drop, List.get?_map]
  by_cases hn : n < r - q
  · rw [List.get?_take (by omega), List.get?_range hn]
    have hlt : q + n < d.length := by omega
    simp only [Option.map_some']
    rw [List.getD_eq_get?, List.get?_eq_get hlt]
    rfl
  · have h1 : (d.take r).get? (q + n) = none := by
      apply List.get?_eq_none.mpr
      rw [List.length_take]
      omega
    have h2 : (List.range (r - q)).get? n = none := by
      apply List.get?_eq_none.mpr
      rw [List.length_range]
      omega
    rw [h1, h2]
    rfl

/-- The iterator walk of `get_data` over blocks `b .. e / BLOCK_SIZE` of a
sorted cache with correct block lengths returns exactly the bytes at
positions `[max start (b·BLOCK_SIZE), e]`, read through `lookup`. -/
theorem get_data_go_spec (cfg : Config) (c : Cache) (len start e : Nat)
    (hBS : 0 < cfg.BLOCK_SIZE)
    (hs : CacheSorted c)
    (hvlen : ∀ p ∈ c, (p.2 : Block).length = min cfg.BLOCK_SIZE (len - p.1 * cfg.BLOCK_SIZE))
    (he : e + 1 ≤ len) (hse : start ≤ e) :
    ∀ n b, start / cfg.BLOCK_SIZE ≤ b → b ≤ e / cfg.BLOCK_SIZE →
      e / cfg.BLOCK_SIZE - b = n →
      (∀ bb, b ≤ bb → bb ≤ e / cfg.BLOCK_SIZE → cacheCount c bb = true) →
      get_data_go cfg start e (e / cfg.BLOCK_SIZE)
          (c.dropWhile (fun q => decide (q.1 < b))) b
        = (List.range (e + 1 - max start (b * cfg.BLOCK_SIZE))).map
            (fun j => cacheByteAt cfg c (max start (b * cfg.BLOCK_SIZE) + j)) := by
  intro n
  induction n with
  | zero =>
    intro b hsb hbe hn hall
    have hb : b = e / cfg.BLOCK_SIZE := by omega
    obtain ⟨v, hvmem⟩ := cacheCount_eq_true.mp (hall b (le_refl _) hbe)
    obtain ⟨rest, hdw, hlk⟩ := sorted_find hs hvmem
    rw [hdw]
    simp only [get_data_go]
    rw [if_neg (by simp), if_pos hb, List.append_nil]
    have hsm : (b + 1) * cfg.BLOCK_SIZE = b * cfg.BLOCK_SIZE + cfg.BLOCK_SIZE :=
      Nat.succ_mul _ _
    have hmulle : b * cfg.BLOCK_SIZE ≤ e := (Nat.le_div_iff_mul_le hBS).mp hbe
    have hmullt : e < (b + 1) * cfg.BLOCK_SIZE :=
      (Nat.div_lt_iff_lt_mul hBS).mp (by omega)
    have hmin : min (e + 1) ((b + 1) * cfg.BLOCK_SIZE) = e + 1 :=
      Nat.min_eq_left (by omega)
    rw [hmin]
    have hvl : v.length = min cfg.BLOCK_SIZE (len - b * cfg.BLOCK_SIZE) := hvlen (b, v) hvmem
    have hsmax1 : b * cfg.BLOCK_SIZE ≤ max start (b * cfg.BLOCK_SIZE) := le_max_right _ _
    have hsmax2 : start ≤ max start (b * cfg.BLOCK_SIZE) := le_max_left _ _
    have hsmax3 : max start (b * cfg.BLOCK_SIZE) ≤ e := by
      rw [Nat.max_le]
      omega
    rw [take_drop_eq_range_map v _ _ (by rw [hvl]; apply le_min <;> omega)]
    have hrange : e + 1 - b * cfg.BLOCK_SIZE - (max start (b * cfg.BLOCK_SIZE)
        - b * cfg.BLOCK_SIZE) = e + 1 - max start (b * cfg.BLOCK_SIZE) := by
      omega
    rw [hrange]
    apply List.map_congr_left
    intro j hj
    rw [List.mem_range] at hj
    have hp1 : b * cfg.BLOCK_SIZE ≤ max start (b * cfg.BLOCK_SIZE) + j := by omega
    have hp2 : max start (b * cfg.BLOCK_SIZE) + j < (b + 1) * cfg.BLOCK_SIZE := by omega
    have hdiv : (max start (b * cfg.BLOCK_SIZE) + j) / cfg.BLOCK_SIZE = b :=
      Nat.div_eq_of_lt_le hp1 hp2
    have hmodsum := Nat.mod_add_div (max start (b * cfg.BLOCK_SIZE) + j) cfg.BLOCK_SIZE
    rw [hdiv, Nat.mul_comm cfg.BLOCK_SIZE b] at hmodsum
    have hmod : (max start (b * cfg.BLOCK_SIZE) + j) % cfg.BLOCK_SIZE =
        max start (b * cfg.BLOCK_SIZE) - b * cfg.BLOCK_SIZE + j := by omega
    unfold cacheByteAt
    rw [hdiv, hlk, hmod]
    rfl
  | succ n ih =>
    intro b hsb hbe hn hall
    have hblt : b < e / cfg.BLOCK_SIZE := by omega
    obtain ⟨v, hvmem⟩ := cacheCount_eq_true.mp (hall b (le_refl _) hbe)
    obtain ⟨rest, hdw, hlk⟩ := sorted_find hs hvmem
    rw [hdw]
    simp only [get_data_go]
    rw [if_neg (by simp), if_neg (by omega)]
    have hsm : (b + 1) * cfg.BLOCK_SIZE = b * cfg.BLOCK_SIZE + cfg.BLOCK_SIZE :=
      Nat.succ_mul _ _
    have hmulle : (b + 1) * cfg.BLOCK_SIZE ≤ e := (Nat.le_div_iff_mul_le hBS).mp (by omega)
    have hstartlt : start < (b + 1) * cfg.BLOCK_SIZE :=
      (Nat.div_lt_iff_lt_mul hBS).mp (by omega)
    have hmin : min (e + 1) ((b + 1) * cfg.BLOCK_SIZE) = (b + 1) * cfg.BLOCK_SIZE :=
      Nat.min_eq_right (by omega)
    rw [hmin]
    have hvl : v.length = min cfg.BLOCK_SIZE (len - b * cfg.BLOCK_SIZE) := hvlen (b, v) hvmem
    have hvlBS : v.length = cfg.BLOCK_SIZE := by
      rw [hvl]
      apply Nat.min_eq_left
      omega
    have hsmax1 : b * cfg.BLOCK_SIZE ≤ max start (b * cfg.BLOCK_SIZE) := le_max_right _ _
    have hsmax2 : start ≤ max start (b * cfg.BLOCK_SIZE) := le_max_left _ _
    have hsmax3 : max start (b * cfg.BLOCK_SIZE) < (b + 1) * cfg.BLOCK_SIZE := by
      rw [Nat.max_lt]
      omega
    rw [take_drop_eq_range_map v _ _ (by omega)]
    have hstep := sorted_find_step hs hdw
    rw [← hstep]
    have hmax2 : max start ((b + 1) * cfg.BLOCK_SIZE) = (b + 1) * cfg.BLOCK_SIZE :=
      Nat.max_eq_right (by omega)
    have hih := ih (b + 1) (by omega) (by omega) (by omega)
      (fun bb h1 h2 => hall bb (by omega) h2)
    rw [hmax2] at hih
    rw [hih]
    have hsplit : e + 1 - max start (b * cfg.BLOCK_SIZE) =
        ((b + 1) * cfg.BLOCK_SIZE - max start (b * cfg.BLOCK_SIZE)) +
          (e + 1 - (b + 1) * cfg.BLOCK_SIZE) := by
      omega
    rw [hsplit, List.range_add, List.map_append, List.map_map]
    congr 1
    · have hrange : (b + 1) * cfg.BLOCK_SIZE - b * cfg.BLOCK_SIZE -
          (max start (b * cfg.BLOCK_SIZE) - b * cfg.BLOCK_SIZE) =
          (b + 1) * cfg.BLOCK_SIZE - max start (b * cfg.BLOCK_SIZE) := by
        omega
      rw [hrange]
      apply List.map_congr_left
      intro j hj
      rw [List.mem_range] at hj
      have hp1 : b * cfg.BLOCK_SIZE ≤ max start (b * cfg.BLOCK_SIZE) + j := by omega
      have hp2 : max start (b * cfg.BLOCK_SIZE) + j < (b + 1) * cfg.BLOCK_SIZE := by omega
      have hdiv : (max start (b * cfg.BLOCK_SIZE) + j) / cfg.BLOCK_SIZE = b :=
        Nat.div_eq_of_lt_le hp1 hp2
      have hmodsum := Nat.mod_add_div (max start (b * cfg.BLOCK_SIZE) + j) cfg.BLOCK_SIZE
      rw [hdiv, Nat.mul_comm cfg.BLOCK_SIZE b] at hmodsum
      have hmod : (max start (b * cfg.BLOCK_SIZE) + j) % cfg.BLOCK_SIZE =
          max start (b * cfg.BLOCK_SIZE) - b * cfg.BLOCK_SIZE + j := by omega
      unfold cacheByteAt
      rw [hdiv, hlk, hmod]
      rfl
    · apply List.map_congr_left
      intro j hj
      simp only [Function.comp_apply]
      rw [show max start (b * cfg.BLOCK_SIZE) +
          ((b + 1) * cfg.BLOCK_SIZE - max start (b * cfg.BLOCK_SIZE) + j) =
          (b + 1) * cfg.BLOCK_SIZE + j from by omega]

/-! ## `applyInserts` invariants -/

theorem applyInserts_len (cfg : Config) (ops : List (Nat × Block)) :
    ∀ st : NetworkStream, (applyInserts cfg st ops).len = st.len := by
  induction ops with
  | nil => intro st; rfl
  | cons p rest ih => intro st; exact ih (set_data cfg st p.1 p.2)

theorem applyInserts_ready (cfg : Config) (ops : List (Nat × Block)) :
    ∀ st : NetworkStream, (applyInserts cfg st ops).ready = st.ready := by
  induction ops with
  | nil => intro st; rfl
  | cons p rest ih => intro st; exact ih (set_data cfg st p.1 p.2)

theorem applyInserts_sorted (cfg : Config) (ops : List (Nat × Block)) :
    ∀ st : NetworkStream, CacheSorted st.downloaded_data →
      CacheSorted (applyInserts cfg st ops).downloaded_data := by
  induction ops with
  | nil => intro st h; exact h
  | cons p rest ih =>
    intro st h
    exact ih (set_data cfg st p.1 p.2) (set_data_sorted cfg h p.1 p.2)

theorem applyInserts_mem (cfg : Config) (ops : List (Nat × Block)) :
    ∀ st : NetworkStream, ∀ p ∈ (applyInserts cfg st ops).downloaded_data,
      p ∈ ops ∨ p ∈ st.downloaded_data := by
  induction ops with
  | nil => intro st p hp; exact Or.inr hp
  | cons q rest ih =>
    intro st p hp
    rcases ih (set_data cfg st q.1 q.2) p hp with h | h
    · exact Or.inl (List.mem_cons_of_mem _ h)
    · rcases mem_set_data cfg st q.1 q.2 p h with h2 | h2
      · refine Or.inl ?_
        rw [h2, Prod.mk.eta]
        exact List.mem_cons_self _ _
      · exact Or.inr h2

/-- Availability decomposed: `ready`, the bound check, and residency of every
block of `[start / BLOCK_SIZE, (start + size - 1) / BLOCK_SIZE]`. -/
theorem is_data_available_down (cfg : Config) (st : NetworkStream) (start size : Nat)
    (hsz : 0 < size) (hov : start + size < U64)
    (h : is_data_available cfg st start size = true) :
    st.ready = true ∧ start + size ≤ st.len ∧
    ∀ b, start / cfg.BLOCK_SIZE ≤ b → b ≤ (start + size - 1) / cfg.BLOCK_SIZE →
      cacheCount st.downloaded_data b = true := by
  have hU : 0 < U64 := by norm_num [U64]
  unfold is_data_available at h
  by_cases hr : st.ready = true
  · rw [if_neg (by simp [hr])] at h
    have hmod : (start + size) % U64 = start + size := Nat.mod_eq_of_lt hov
    by_cases hlen : start + size ≤ st.len
    · rw [if_neg (by rw [hmod]; omega)] at h
      have he : (start + size + (U64 - 1)) % U64 = start + size - 1 := by
        have h1 : start + size + (U64 - 1) = (start + size - 1) + U64 := by omega
        rw [h1, Nat.add_mod_right, Nat.mod_eq_of_lt (by omega)]
      rw [he, List.all_eq_true] at h
      refine ⟨hr, hlen, ?_⟩
      intro b h1 h2
      have hdm : start / cfg.BLOCK_SIZE ≤ (start + size - 1) / cfg.BLOCK_SIZE :=
        Nat.div_le_div_right (by omega)
      exact h b (List.mem_range'_1.mpr ⟨h1, by omega⟩)
    · rw [if_pos (by rw [hmod]; omega)] at h
      exact absurd h (by simp)
  · rw [if_pos (by simpa using hr)] at h
    exact absurd h (by simp)

/-! ## Claim C4: the read round-trip law -/

/-- C4: after any sequence of `insert(i, b_i)` with correct block lengths on
an initially empty cache, a `read(start, size)` whose range `is_available`
returns exactly `size` bytes, and byte `j` of the result is byte
`(start + j) % BLOCK_SIZE` of the stored block `(start + j) / BLOCK_SIZE` —
i.e. the concatenation of the stored-block slices covering
`[start, start + size)`. -/
theorem C4_read_round_trip (cfg : Config) (st0 : NetworkStream) (ops : List (Nat × Block))
    (start size : Nat) (hBS : 0 < cfg.BLOCK_SIZE)
    (h0 : st0.downloaded_data = [])
    (hlen : ∀ p ∈ ops, (p.2 : Block).length =
      min cfg.BLOCK_SIZE (st0.len - p.1 * cfg.BLOCK_SIZE))
    (hov : start + size < U64)
    (hav : is_data_available cfg (applyInserts cfg st0 ops) start size = true) :
    get_data cfg (applyInserts cfg st0 ops) start size =
      (List.range size).map
        (fun j => cacheByteAt cfg (applyInserts cfg st0 ops).downloaded_data (start + j)) ∧
    (get_data cfg (applyInserts cfg st0 ops) start size).length = size := by
  by_cases hsz : size = 0
  · subst hsz
    have hg : get_data cfg (applyInserts cfg st0 ops) start 0 = [] := by
      unfold get_data
      split
      · rfl
      · simp
    rw [hg]
    exact ⟨by simp, by simp⟩
  · have hszpos : 0 < size := Nat.pos_of_ne_zero hsz
    obtain ⟨hready, hlenle, hpres⟩ :=
      is_data_available_down cfg (applyInserts cfg st0 ops) start size hszpos hov hav
    have hlenF : (applyInserts cfg st0 ops).len = st0.len := applyInserts_len cfg ops st0
    have hsorted : CacheSorted (applyInserts cfg st0 ops).downloaded_data := by
      apply applyInserts_sorted
      rw [h0]
      exact List.Pairwise.nil
    have hvlen : ∀ p ∈ (applyInserts cfg st0 ops).downloaded_data,
        (p.2 : Block).length = min cfg.BLOCK_SIZE (st0.len - p.1 * cfg.BLOCK_SIZE) := by
      intro p hp
      rcases applyInserts_mem cfg ops st0 p hp with h | h
      · exact hlen p h
      · rw [h0] at h
        exact absurd h (List.not_mem_nil p)
    have he : (start + size - 1) % U64 = start + size - 1 := Nat.mod_eq_of_lt (by omega)
    have hdm : start / cfg.BLOCK_SIZE ≤ (start + size - 1) / cfg.BLOCK_SIZE :=
      Nat.div_le_div_right (by omega)
    have hmain := get_data_go_spec cfg (applyInserts cfg st0 ops).downloaded_data st0.len
      start (start + size - 1) hBS hsorted hvlen (by omega) (by omega)
      ((start + size - 1) / cfg.BLOCK_SIZE - start / cfg.BLOCK_SIZE)
      (start / cfg.BLOCK_SIZE) (le_refl _) hdm rfl hpres
    have hmax : max start (start / cfg.BLOCK_SIZE * cfg.BLOCK_SIZE) = start :=
      Nat.max_eq_left (Nat.div_mul_le_self start cfg.BLOCK_SIZE)
    rw [hmax] at hmain
    have hg : get_data cfg (applyInserts cfg st0 ops) start size =
        get_data_go cfg start (start + size - 1)
          ((start + size - 1) / cfg.BLOCK_SIZE)
          ((applyInserts cfg st0 ops).downloaded_data.dropWhile
            (fun p => decide (p.1 < start / cfg.BLOCK_SIZE)))
          (start / cfg.BLOCK_SIZE) := by
      unfold get_data
      rw [if_neg (by simp [hready]), if_neg hsz]
      simp only []
      rw [he]
    have hsize : start + size - 1 + 1 - start = size := by omega
    rw [hg, hmain, hsize]
    exact ⟨rfl, by simp⟩

/-- C4, witness: blocks `0,1,2` of a 5-byte resource inserted with their
correct lengths; reading `[1, 4)` returns the 3 bytes straddling blocks 0 and
1. -/
theorem C4_read_round_trip_witness :
    let cfg : Config := ⟨2, 8, 8⟩
    let st0 : NetworkStream := { len := 5, ready := true }
    let ops : List (Nat × Block) := [(0, [10, 11]), (1, [12, 13]), (2, [14])]
    get_data cfg (applyInserts cfg st0 ops) 1 3 =
      (List.range 3).map
        (fun j => cacheByteAt cfg (applyInserts cfg st0 ops).downloaded_data (1 + j)) ∧
    (get_data cfg (applyInserts cfg st0 ops) 1 3).length = 3 :=
  C4_read_round_trip ⟨2, 8, 8⟩ { len := 5, ready := true }
    [(0, [10, 11]), (1, [12, 13]), (2, [14])] 1 3
    (by decide) rfl (by decide) (by norm_num [U64]) (by decide)

end ThirdTube
